import Mathlib

/-!
Verification of the duplicate-song detection core of the jsTools repository.

The JavaScript sources embedded here (shallowly, over `List Char` / `String`,
with `Nat` sizes and `ℚ` scores) are:
  * `scripts/music/check_duplicates_enhanced.js` — the enhanced detector:
    scoring (`getScore`), title normalization (`toSimplified`,
    `normalizeRomanNumerals`, `removeDescriptiveSuffix`, `getSongKey`'s
    title folds), exact-duplicate pass (size → MD5), semantic pass,
    report/cleanup-script emission;
  * `check_duplicates_utils.js` — `parseSongInfo` and the mover script that
    consumes it (its semantic pass with the short-title/Unknown exclusion).

File hashing (`getFileHash`, an IO action returning an MD5 hex string or
null) is modelled as a parameter `hashOf : FileInfo → Option String`.
JavaScript's Unicode-wide `toLowerCase` is not one-to-one character-wise
(`İ`, U+0130, lowercases to the two characters `i` U+0307); it is modelled
by the expanding character map `lcChars`/`lowerE`, and — where only
characters of the exact alphabet `keyAlpha` (ASCII, the CJK block,
fullwidth parens, whitespace) can reach it, on which the two renderings
coincide — by the simple per-character map `lcChar`/`lowerL`.
-/

namespace JsTools

/-! ### Character tables and elementary character classes -/

/-- First-match association-list lookup (models a JS object-literal lookup;
the JS tables have no conflicting duplicate keys). -/
def tblGet (tbl : List (Char × Char)) (c : Char) : Option Char :=
  match tbl with
  | [] => none
  | (k, v) :: rest => if c = k then some v else tblGet rest c

/-- ASCII upper→lower case pairs: models the effect of `toLowerCase()` /
the `i` regex flag on the character sets these scripts use. -/
def ucPairs : List (Char × Char) :=
  [('A','a'), ('B','b'), ('C','c'), ('D','d'), ('E','e'), ('F','f'),
   ('G','g'), ('H','h'), ('I','i'), ('J','j'), ('K','k'), ('L','l'),
   ('M','m'), ('N','n'), ('O','o'), ('P','p'), ('Q','q'), ('R','r'),
   ('S','s'), ('T','t'), ('U','u'), ('V','v'), ('W','w'), ('X','x'),
   ('Y','y'), ('Z','z')]

def lcChar (c : Char) : Char :=
  match tblGet ucPairs c with
  | some v => v
  | none => c

/-- Lowercase a character list (`.toLowerCase()`). -/
def lowerL (l : List Char) : List Char := l.map lcChar

/-- Case-folded comparison key (`i` regex flag). -/
def low (l : List Char) : List Char := l.map lcChar

/-- The `[A-Za-z]` character class used by the Roman-numeral lookarounds. -/
def letterChars : List Char := ucPairs.map Prod.fst ++ ucPairs.map Prod.snd

def isLetter (c : Char) : Bool := letterChars.contains c

/-- JS `\s`: whitespace characters (the ones expressible per the spec). -/
def wsChars : List Char :=
  [' ', '\t', '\n', '\r', '\x0b', '\x0c', ' ', ' ',
   ' ', ' ', ' ', ' ', ' ', ' ', ' ',
   ' ', ' ', ' ', ' ', ' ', ' ', ' ',
   ' ', '　', '﻿']

def isWS (c : Char) : Bool := wsChars.contains c

/-- `str.replace(/\s+/g, '')`. -/
def stripWS (l : List Char) : List Char := l.filter (fun c => !isWS c)

/-- `toLowerCase()` as a character-to-characters map: with full Unicode
special casing the mapping is not one-to-one — `İ` (U+0130) lowercases to
the two characters `i` U+0307.  `lcChar` above is the simple one-to-one
map, exact on every character below U+0080 and on every case-invariant
character. -/
def lcChars (c : Char) : List Char :=
  if c = 'İ' then ['i', Char.ofNat 0x307] else [lcChar c]

/-- `.toLowerCase()` on a character list, with the U+0130 expansion. -/
def lowerE (l : List Char) : List Char := (l.map lcChars).flatten

/-- The alphabet on which the embedding's character primitives agree with
the JavaScript string primitives character-for-character: ASCII (simple
case mapping, no special-casing expansions), the CJK unified block
U+4E00–U+9FFF and the fullwidth parens (case-invariant), and JS
whitespace. -/
def keyAlpha (c : Char) : Bool :=
  Nat.blt c.toNat 0x80 ||
    (Nat.ble 0x4E00 c.toNat && Nat.ble c.toNat 0x9FFF) ||
    c == '（' || c == '）' || isWS c

def digitChars : List Char := ['0','1','2','3','4','5','6','7','8','9']

def isDigit (c : Char) : Bool := digitChars.contains c

/-- `TRAD_TO_SIMP` of check_duplicates_enhanced.js (object-literal order;
the JS object's duplicate keys 頭/東/裡·裏 carry identical values, so
first-match lookup agrees with the object). -/
def TRAD_TO_SIMP : List (Char × Char) :=
  [('齊','齐'), ('學','学'), ('華','华'), ('國','国'), ('愛','爱'),
   ('戀','恋'), ('夢','梦'), ('風','风'), ('雲','云'), ('時','时'),
   ('間','间'), ('東','东'), ('車','车'), ('馬','马'), ('鳥','鸟'),
   ('魚','鱼'), ('長','长'), ('門','门'), ('開','开'), ('關','关'),
   ('聽','听'), ('說','说'), ('話','话'), ('語','语'), ('紅','红'),
   ('綠','绿'), ('藍','蓝'), ('黃','黄'), ('頭','头'), ('臉','脸'),
   ('體','体'), ('發','发'), ('無','无'), ('從','从'), ('來','来'),
   ('過','过'), ('裡','里'), ('頭','头'), ('葉','叶'), ('電','电'),
   ('腦','脑'), ('機','机'), ('書','书'), ('畫','画'), ('詩','诗'),
   ('歌','歌'), ('聲','声'), ('響','响'), ('樂','乐'), ('東','东'),
   ('見','见'), ('親','亲'), ('對','对'), ('這','这'), ('裏','里'),
   ('誰','谁'), ('讓','让'), ('還','还'), ('後','后'), ('隨','随')]

def simpChar (c : Char) : Char :=
  match tblGet TRAD_TO_SIMP c with
  | some v => v
  | none => c

/-- `toSimplified` of check_duplicates_enhanced.js: per-character fold. -/
def toSimplifiedL (l : List Char) : List Char := l.map simpChar

/-- The traditional-character blacklist of `getScore`'s regex character
class (in source order, with the class's duplicates removed — a regex
character class is just a set). -/
def tradBlacklist : List Char :=
  ['齊','學','華','國','愛','戀','夢','風','雲','時','間','東','車','馬',
   '鳥','魚','長','門','開','關','聽','說','話','語','紅','綠','藍','黃',
   '頭','臉','體','發','無','從','來','過']

/-! ### Substring and affix operations on character lists -/

/-- `pat` occurs at the start of `s` (exact characters). -/
def startsWithCL : List Char → List Char → Bool
  | [], _ => true
  | _ :: _, [] => false
  | a :: as, b :: bs => a == b && startsWithCL as bs

/-- `s.includes(pat)` — `pat` occurs contiguously somewhere in `s`. -/
def containsSub (pat : List Char) : List Char → Bool
  | [] => startsWithCL pat []
  | c :: rest => startsWithCL pat (c :: rest) || containsSub pat rest

/-- Case-insensitive: `pat` (given lowercase) occurs at the start of `s`. -/
def startsWithCI (pat s : List Char) : Bool := startsWithCL pat (low s)

/-- Case-insensitive regex `/\.EXT$/i`: `s` ends with `pat`
(given lowercase, reversed). -/
def endsWithRevCI (patRev s : List Char) : Bool :=
  startsWithCL patRev (low s.reverse)

/-! ### The scoring policy (`getScore` of check_duplicates_enhanced.js) -/

/-- A preprocessed audio-file record of check_duplicates_enhanced.js's
`fileInfos` (run(), preprocessing step): `lrcPath` is the associated
same-basename `.lrc` sidecar or null. -/
structure FileInfo where
  path : String
  name : String
  size : Nat
  artist : String
  title : String
  key : String
  lrcPath : Option String
deriving DecidableEq

/-- `getScore` of check_duplicates_enhanced.js, transcribed clause by
clause (JS numbers modelled as ℚ; `if (fileInfo.size)` is a zero test). -/
def getScore (f : FileInfo) : ℚ :=
  let name := f.name.data
  let s0 : ℚ := 0
  let s1 := if containsSub [' ', '-', ' '] name then s0 + 100 else s0
  let s2 := if !(name.any (fun c => tradBlacklist.contains c)) then s1 + 20 else s1
  let s3 := if f.size ≠ 0 then s2 + (f.size : ℚ) / 1024 / 1024 else s2
  let s4 := if endsWithRevCI ['c','a','l','f','.'] name then s3 + 50 else s3
  let s5 := if endsWithRevCI ['e','p','a','.'] name then s4 + 40 else s4
  if endsWithRevCI ['v','a','w','.'] name then s5 + 30 else s5

/-- The spec's §4.4 formula, written from the spec's words: a plain additive
sum of the four components, with a single mutually-exclusive format bonus. -/
def specFormatBonus (f : FileInfo) : ℚ :=
  if endsWithRevCI ['c','a','l','f','.'] f.name.data then 50
  else if endsWithRevCI ['e','p','a','.'] f.name.data then 40
  else if endsWithRevCI ['v','a','w','.'] f.name.data then 30
  else 0

def specScore (f : FileInfo) : ℚ :=
  (if containsSub [' ', '-', ' '] f.name.data then 100 else 0)
  + (if !(f.name.data.any (fun c => tradBlacklist.contains c)) then 20 else 0)
  + (f.size : ℚ) / 1048576
  + specFormatBonus f

/-! ### Maximal-run decomposition and the Roman-numeral pass

`normalizeRomanNumerals` replaces, for each numeral in source order, every
occurrence flanked by non-`[A-Za-z]` on both sides (`(?<![A-Za-z])…(?![A-Za-z])`,
flag `gi`).  Such an occurrence is exactly a maximal `[A-Za-z]` run that
equals the numeral case-insensitively, so the pass is embedded as a map
over the maximal-run decomposition of the string. -/

/-- Split into maximal runs of equal `isLetter`-ness; `b` is the letterness
of the (reversed) run being accumulated in `cur`. -/
def chunksAux (b : Bool) (cur : List Char) : List Char → List (List Char)
  | [] => [cur.reverse]
  | c :: cs =>
    if isLetter c = b then chunksAux b (c :: cur) cs
    else cur.reverse :: chunksAux (isLetter c) [c] cs

def chunks : List Char → List (List Char)
  | [] => []
  | c :: cs => chunksAux (isLetter c) [c] cs

/-- `ROMAN_TO_ARABIC` in the replacement order of `normalizeRomanNumerals`
(`['VIII','VII','III','IV','VI','IX','II','V','X','I']`). -/
def ROMANS : List (List Char × List Char) :=
  [(['V','I','I','I'], ['8']), (['V','I','I'], ['7']),
   (['I','I','I'], ['3']), (['I','V'], ['4']), (['V','I'], ['6']),
   (['I','X'], ['9']), (['I','I'], ['2']), (['V'], ['5']),
   (['X'], ['1','0']), (['I'], ['1'])]

/-- One `str.replace(regex, arabic)` step: every standalone (= maximal-run,
case-insensitive) occurrence of `pat` becomes `rep`. -/
def replaceRun (pat rep : List Char) (s : List Char) : List Char :=
  ((chunks s).map (fun ch => if low ch = low pat then rep else ch)).flatten

/-- `normalizeRomanNumerals` of check_duplicates_enhanced.js. -/
def romanAll (s : List Char) : List Char :=
  ROMANS.foldl (fun t pr => replaceRun pr.1 pr.2 t) s

/-! ### `removeDescriptiveSuffix` of check_duplicates_enhanced.js

The regex is
`\s*[（(]\s*(live|remix|…)[^)）]*[)）]$` (flag `i`), applied with
`replace` in a do/while loop until a fixpoint, then `.trim()`.
A (leftmost) match exists iff the string ends with a close paren and some
open paren after the last earlier close paren is followed (after optional
whitespace) by one of the keywords; the replacement drops everything from
that open paren back through the whitespace run directly before it. -/

def openCh (c : Char) : Bool := c == '(' || c == '（'

def closeCh (c : Char) : Bool := c == ')' || c == '）'

/-- `DESCRIPTIVE_SUFFIXES` of check_duplicates_enhanced.js, lowercased for
the case-insensitive match. -/
def KEYWORDS : List (List Char) :=
  (["live", "remix", "mix", "cover", "demo", "acoustic", "instrumental",
    "dj", "伴奏", "演唱会", "现场", "版", "大合唱", "合唱", "独唱",
    "钢琴版", "吉他版", "纯音乐", "karaoke", "ktv", "radio edit",
    "remaster", "remastered", "bonus", "edit", "extended", "short",
    "蛰伏", "国语", "粤语", "日语", "英语", "翻唱"] : List String).map
    (fun s => low s.data)

/-- The part of the regex after the open paren and before the final close
paren: optional whitespace, then a keyword, then close-paren-free filler. -/
def bodyOk (body : List Char) : Bool :=
  body.all (fun c => !closeCh c) &&
  (List.range ((body.takeWhile isWS).length + 1)).any
    (fun k => KEYWORDS.any (fun kw => startsWithCI kw (body.drop k)))

/-- Does a match start at this open paren (the tail begins with it)? -/
def tailMatch (tail : List Char) : Bool :=
  match tail with
  | [] => false
  | c :: rest =>
    openCh c &&
    (match rest.reverse with
     | [] => false
     | cl :: bodyRev => closeCh cl && bodyOk bodyRev.reverse)

/-- Scan for the leftmost matching open paren; `kept` is the reversed
prefix before the scan position.  On a match, the result is the prefix
minus the whitespace run the regex's leading `\s*` absorbs. -/
def rdsScan (kept : List Char) : List Char → Option (List Char)
  | [] => none
  | c :: rest =>
    if tailMatch (c :: rest) then some ((kept.dropWhile isWS).reverse)
    else rdsScan (c :: kept) rest

/-- One `replace` application of the suffix regex. -/
def rdsOnce (s : List Char) : List Char :=
  match rdsScan [] s with
  | some pre => pre
  | none => s

/-- The do/while fixpoint loop, run with enough fuel (`rdsOnce` removes at
least one character whenever it changes its input, see
`removeDescriptiveSuffix_terminates`). -/
def rdsLoopF : Nat → List Char → List Char
  | 0, s => s
  | n + 1, s => if rdsOnce s = s then s else rdsLoopF n (rdsOnce s)

def rdsLoop (s : List Char) : List Char := rdsLoopF (s.length + 1) s

/-- `.trim()`. -/
def trimL (s : List Char) : List Char :=
  ((s.dropWhile isWS).reverse.dropWhile isWS).reverse

def removeDescriptiveSuffixL (s : List Char) : List Char := trimL (rdsLoop s)

def removeDescriptiveSuffix (s : String) : String :=
  ⟨removeDescriptiveSuffixL s.data⟩

/-! ### The title-normalization pipeline -/

/-- The title folds of `getSongKey` in check_duplicates_enhanced.js:
`toSimplified`, `normalizeRomanNumerals`, `toLowerCase`,
`replace(/\s+/g, '')` — everything the key normalizer applies to a title
except suffix stripping (which `parseSongInfo` applies beforehand). -/
def keyTransform (s : List Char) : List Char :=
  stripWS (lowerL (romanAll (toSimplifiedL s)))

/-- The same folds with the expanding `toLowerCase` (`lowerE`); coincides
with `keyTransform` on titles over the exact alphabet `keyAlpha`. -/
def keyTransformE (s : List Char) : List Char :=
  stripWS (lowerE (romanAll (toSimplifiedL s)))

/-- The full title pipeline of the enhanced script, in dataflow order:
`parseSongInfo` strips descriptive suffixes from the title, then
`getSongKey` applies the folds of `keyTransform`. -/
def normalizeTitleL (s : List Char) : List Char :=
  keyTransform (removeDescriptiveSuffixL s)

def normalizeTitle (s : String) : String := ⟨normalizeTitleL s.data⟩

/-! ### Order-preserving grouping (JS `Map` of arrays)

`if (!m.has(k)) m.set(k, []); m.get(k).push(v)` over a `Map` keeps keys in
first-insertion order and group members in insertion order. -/

def insertGrouped {κ α : Type} [DecidableEq κ]
    (acc : List (κ × List α)) (k : κ) (a : α) : List (κ × List α) :=
  match acc with
  | [] => [(k, [a])]
  | (k', as) :: rest =>
    if k' = k then (k', as ++ [a]) :: rest else (k', as) :: insertGrouped rest k a

/-- Group the elements on which `key` fires, by their key. -/
def groupByOpt {κ α : Type} [DecidableEq κ]
    (key : α → Option κ) (xs : List α) : List (κ × List α) :=
  xs.foldl (fun acc a =>
    match key a with
    | some k => insertGrouped acc k a
    | none => acc) []

/-! ### Pass 1 — exact duplicates (size, then MD5) -/

structure ExactGroup where
  hash : String
  size : Nat
  files : List FileInfo
deriving DecidableEq

/-- `const hash = getFileHash(f.path); if (hash) …` — the truthiness test
also rejects an empty string. -/
def hashKey (hashOf : FileInfo → Option String) (f : FileInfo) : Option String :=
  match hashOf f with
  | some h => if h = "" then none else some h
  | none => none

/-- Pass 1 of check_duplicates_enhanced.js's `run`: partition by size, keep
multi-member non-zero-size partitions, sub-partition those by hash, and
keep multi-member sub-partitions. -/
def exactDuplicates (hashOf : FileInfo → Option String)
    (files : List FileInfo) : List ExactGroup :=
  let sizeGroups :=
    (groupByOpt (fun f => some f.size) files).filter
      (fun sg => sg.2.length > 1 && sg.1 > 0)
  (sizeGroups.map (fun sg =>
    ((groupByOpt (hashKey hashOf) sg.2).filter (fun hg => hg.2.length > 1)).map
      (fun hg => ExactGroup.mk hg.1 sg.1 hg.2))).flatten

/-! ### Pass 2 — semantic duplicates (normalized key) -/

structure SemGroup where
  key : String
  files : List FileInfo
deriving DecidableEq

/-- `exactDupPaths`: the paths of every member of every exact group. -/
def exactDupPaths (eds : List ExactGroup) : List String :=
  (eds.map (fun g => g.files.map (fun f => f.path))).flatten

/-- `exactDuplicates.find(e => e.files.some(ef => ef.path === f.path))`. -/
def findExact (eds : List ExactGroup) (p : String) : Option ExactGroup :=
  eds.find? (fun e => e.files.any (fun f => f.path == p))

/-- The `uniqueHashes` set built inside the `allInExact` branch (a JS `Set`,
modelled as a first-insertion-ordered duplicate-free list). -/
def uniqueHashes (eds : List ExactGroup) (group : List FileInfo) : List String :=
  group.foldl (fun acc f =>
    match findExact eds f.path with
    | some ed => if acc.contains ed.hash then acc else acc ++ [ed.hash]
    | none => acc) []

/-- `songMap` of Pass 2: every file with truthy (non-empty) title and key,
grouped by key.  The commented-out exclusion of exact-duplicate members was
deliberately not applied in the source
(`// 跳过已在完全重复中的文件? 不，语义重复也要报告`). -/
def songMap (files : List FileInfo) : List (String × List FileInfo) :=
  groupByOpt
    (fun f => if f.title ≠ "" ∧ f.key ≠ "" then some f.key else none) files

/-- The per-partition keep test of Pass 2's loop: partitions of ≤ 1 member
are skipped, and a multi-member partition is skipped (the `continue`) iff
all members are exact-duplicate members and their exact groups contribute
at most one distinct hash. -/
def semKeep (eds : List ExactGroup) (kg : String × List FileInfo) : Bool :=
  kg.2.length > 1 &&
  !(kg.2.all (fun f => (exactDupPaths eds).contains f.path) &&
    (uniqueHashes eds kg.2).length ≤ 1)

/-- Pass 2 of check_duplicates_enhanced.js's `run`. -/
def semanticDuplicates (eds : List ExactGroup)
    (files : List FileInfo) : List SemGroup :=
  (songMap files).foldl (fun acc kg =>
    if semKeep eds kg then acc ++ [SemGroup.mk kg.1 kg.2] else acc) []

/-! ### Ranking — `files.sort((a, b) => getScore(b) - getScore(a))`

`Array.prototype.sort` is stable; with this comparator it is the stable
descending sort by `getScore`, embedded as stable insertion sort. -/

def insertDesc {α : Type} (f : α → ℚ) (x : α) : List α → List α
  | [] => [x]
  | y :: ys => if f x < f y then y :: insertDesc f x ys else x :: y :: ys

def sortByScoreDesc {α : Type} (f : α → ℚ) : List α → List α
  | [] => []
  | x :: xs => insertDesc f x (sortByScoreDesc f xs)

/-! ### The cleanup-script emitter (section D of `run`)

Only the generated `mv` operations are modelled (the report text and the
shell boilerplate around them carry no claim).  Each non-keeper of each
sorted group is moved into the group's quarantine directory, and its
`.lrc` sidecar, when present, is moved right along with it. -/

structure MoveOp where
  src : String
  destDir : String
deriving DecidableEq

/-- `String(idx + 1).padStart(3, '0')`. -/
def pad3 (n : Nat) : String :=
  let s := toString n
  if s.length ≥ 3 then s else ⟨List.replicate (3 - s.length) '0' ++ s.data⟩

/-- `safeDirName`: replace `/\:*?"<>|` with `_` and truncate to 50. -/
def safeDirName (name : String) : String :=
  ⟨(name.data.map (fun c =>
      if ['/', '\\', ':', '*', '?', '"', '<', '>', '|'].contains c
      then '_' else c)).take 50⟩

/-- The moves of one group: `d.files.slice(1).forEach(f => { mv f; if
(f.lrcPath) mv lrc; })` after the in-place score sort. -/
def groupMoves (dir : String) (sortedFiles : List FileInfo) : List MoveOp :=
  ((sortedFiles.drop 1).map (fun f =>
    MoveOp.mk f.path dir ::
      (match f.lrcPath with
       | some l => [MoveOp.mk l dir]
       | none => []))).flatten

/-- Pair every element with its running `forEach` index. -/
def withIdx {α : Type} : Nat → List α → List (Nat × α)
  | _, [] => []
  | i, x :: xs => (i, x) :: withIdx (i + 1) xs

/-- Emit the moves of a sequence of (quarantine directory, group) pairs. -/
def emitGroups : List (String × List FileInfo) → List MoveOp
  | [] => []
  | (dir, g) :: rest =>
    groupMoves dir (sortByScoreDesc getScore g) ++ emitGroups rest

def exactDir (i : Nat) : String :=
  "_duplicates_temp/exact/group_" ++ pad3 (i + 1)

/-- `const [artist, title] = d.key.split('|')` — `title` is the segment
between the first and second `|`. -/
def semanticDir (i : Nat) (key : String) : String :=
  "_duplicates_temp/semantic/group_" ++ pad3 (i + 1) ++ "_"
    ++ safeDirName
        ⟨((key.data.dropWhile (fun c => c ≠ '|')).drop 1).takeWhile
          (fun c => c ≠ '|')⟩

/-- All `mv` operations of the generated `_cleanup_duplicates.sh`: the
exact groups' moves, then the semantic groups' moves. -/
def cleanupMoves (hashOf : FileInfo → Option String)
    (files : List FileInfo) : List MoveOp :=
  let eds := exactDuplicates hashOf files
  let sds := semanticDuplicates eds files
  emitGroups ((withIdx 0 eds).map (fun id => (exactDir id.1, id.2.files))) ++
    emitGroups ((withIdx 0 sds).map
      (fun id => (semanticDir id.1 id.2.key, id.2.files)))

/-! ### `parseSongInfo` of check_duplicates_utils.js -/

structure SongInfo where
  artist : String
  title : String
deriving DecidableEq

/-- `path.basename(fileName, path.extname(fileName))`: drop the extension
the final dot starts, unless the name has no dot or only a leading dot. -/
def baseNoExtU (name : List Char) : List Char :=
  let r := name.reverse
  match r.dropWhile (fun c => c ≠ '.') with
  | [] => name
  | _ :: pre => if pre = [] then name else pre.reverse

/-- `replace(/^(\d+[\.\-]?\s+)/, '')`. -/
def trackStep1 (n : List Char) : List Char :=
  let ds := n.takeWhile isDigit
  if ds = [] then n
  else
    let r1 := n.drop ds.length
    match r1 with
    | c :: rest =>
      if c = '.' ∨ c = '-' then
        if rest.takeWhile isWS = [] then n
        else rest.drop (rest.takeWhile isWS).length
      else
        if r1.takeWhile isWS = [] then n
        else r1.drop (r1.takeWhile isWS).length
    | [] => n

/-- `replace(/^\d+\./, '')`. -/
def trackStep2 (n : List Char) : List Char :=
  let ds := n.takeWhile isDigit
  if ds = [] then n
  else
    match n.drop ds.length with
    | c :: rest => if c = '.' then rest else n
    | [] => n

def removeTrackNumU (n : List Char) : List Char := trackStep2 (trackStep1 n)

/-- Split at the first occurrence of `pat`: the part before it, and
(when `pat` occurs) the part after it. -/
def breakSub (pat : List Char) : List Char → List Char × Option (List Char)
  | [] => ([], none)
  | c :: rest =>
    if startsWithCL pat (c :: rest) then ([], some ((c :: rest).drop pat.length))
    else
      match breakSub pat rest with
      | (b, a) => (c :: b, a)

/-- `parts[0]` and `parts[1]` of `nameNoExt.split(sep)` (the split has at
least two parts whenever `sep` occurs). -/
def splitTwo (sep n : List Char) : List Char × List Char :=
  match breakSub sep n with
  | (p0, some rest) => (p0, (breakSub sep rest).1)
  | (p0, none) => (p0, [])

/-- The lazy anchored match `^(.+?)[（(](.+?)[)）]$`: the name ends with a
close paren, and some open paren at index ≥ 1 has at least one character
after it before that final close.  Returns (pre-paren text, paren body). -/
def parenGo (accRev : List Char) : List Char → Option (List Char × List Char)
  | [] => none
  | c :: cs =>
    if openCh c then
      if cs.isEmpty then none else some (accRev.reverse, cs)
    else parenGo (c :: accRev) cs

def parenMatch (n : List Char) : Option (List Char × List Char) :=
  match n.reverse with
  | [] => none
  | c :: _ =>
    if closeCh c then
      match n.dropLast with
      | [] => none
      | c0 :: rest0 => parenGo [c0] rest0
    else none

/-- The three ordered pattern attempts, returning the pre-fallback
(artist, title); `([], [])` when nothing was set. -/
def patternParse (n : List Char) : List Char × List Char :=
  if containsSub [' ', '-', ' '] n then
    match splitTwo [' ', '-', ' '] n with
    | (p0, p1) => (trimL p0, trimL p1)
  else if containsSub ['-'] n then
    match splitTwo ['-'] n with
    | (p0, p1) => (trimL p0, trimL p1)
  else if n.any openCh ∧ n.any closeCh then
    match parenMatch n with
    | some ab => (trimL ab.2, trimL ab.1)
    | none => ([], [])
  else ([], [])

/-- The tag alternation of `suffixRegex`
(`[（(](Live|Mix|Remix|Cover|DJ|伴奏|演唱会|版)[)）]$`, flag `i`),
lowercased. -/
def TAGS7 : List (List Char) :=
  (["live", "mix", "remix", "cover", "dj", "伴奏", "演唱会", "版"] :
    List String).map (fun s => low s.data)

/-- Does the title end with `(kw)` (any paren widths, case-insensitive)? -/
def tagHit (kw t : List Char) : Bool :=
  match t.reverse with
  | [] => false
  | c :: rest =>
    closeCh c && startsWithCL kw.reverse (low rest) &&
    (match rest.drop kw.length with
     | o :: _ => openCh o
     | [] => false)

/-- `if (suffixRegex.test(title)) title = title.replace(suffixRegex, '').trim()`
— at most one alternative can match a given ending (keywords contain no
paren), so the stripped span is determined. -/
def tagStripU (t : List Char) : List Char :=
  match TAGS7.find? (fun kw => tagHit kw t) with
  | some kw => trimL (t.take (t.length - (kw.length + 2)))
  | none => t

/-- The `nameNoExt` intermediate of `parseSongInfo`: base name without
extension, with the numeric track prefix removed. -/
def nameNoExtOf (fileName : String) : List Char :=
  removeTrackNumU (baseNoExtU fileName.data)

/-- JS truthiness of the `defaultArtist` parameter (`undefined` and the
empty string both fall back to the `'Unknown'` sentinel). -/
def fbValue : Option String → String
  | some d => if d = "" then "Unknown" else d
  | none => "Unknown"

/-- `parseSongInfo` of check_duplicates_utils.js.  Total by construction
(the JS function contains no throwing operation). -/
def parseSongInfoU (fileName : String) (defaultArtist : Option String) :
    SongInfo :=
  let nameNoExt := nameNoExtOf fileName
  let pr := patternParse nameNoExt
  let title0 := if pr.2 = [] then nameNoExt else pr.2
  let title1 := tagStripU title0
  let artist1 :=
    if pr.1 = [] ∨ lowerL pr.1 = "unknown".data
    then (fbValue defaultArtist).data else pr.1
  SongInfo.mk ⟨artist1⟩ ⟨title1⟩

/-! ### The part_004 mover script's semantic pass (section B) -/

/-- A nonempty block of characters of uniform letterness `b`. -/
def Chunky (b : Bool) (w : List Char) : Prop :=
  w ≠ [] ∧ ∀ c ∈ w, isLetter c = b

/-- An alternating chunk list whose first chunk's letterness must differ
from `ob` (`none` forbids nothing). -/
def AltOK : Option Bool → List (List Char) → Prop
  | _, [] => True
  | ob, w :: rest => ∃ b, Chunky b w ∧ some b ≠ ob ∧ AltOK (some b) rest

/-- The letterness of a block, read off its first character. -/
def ckind (w : List Char) : Bool :=
  match w with
  | [] => false
  | c :: _ => isLetter c

/-- Renormalize a block list: drop empty blocks and merge adjacent blocks
of equal letterness. -/
def glue : List (List Char) → List (List Char)
  | [] => []
  | w :: rest =>
    if w = [] then glue rest
    else
      match glue rest with
      | [] => [w]
      | v :: vs => if ckind w = ckind v then (w ++ v) :: vs else w :: v :: vs

/-- Uniform or empty. -/
def Uniformish (w : List Char) : Prop := w = [] ∨ ∃ b, Chunky b w

/-- No two adjacent letter blocks. -/
def NoLL : List (List Char) → Prop
  | [] => True
  | [_] => True
  | w :: v :: rest => ¬(ckind w = true ∧ ckind v = true) ∧ NoLL (v :: rest)

/-- The ten Roman numerals, case-folded. -/
def lowWords : List (List Char) := ROMANS.map (fun pr => low pr.1)

/-- No maximal letter run of `t` is, case-insensitively, one of the
words in `ws`. -/
def NoTok (ws : List (List Char)) (t : List Char) : Prop :=
  ∀ w ∈ chunks t, ckind w = true → ∀ v ∈ ws, low w ≠ v

/-! ## Lemmas about the grouping combinators -/

theorem insertGrouped_sound {κ α : Type} [DecidableEq κ] (key : α → Option κ)
    (acc : List (κ × List α)) (k : κ) (a : α)
    (hacc : ∀ kg ∈ acc, ∀ x ∈ kg.2, key x = some kg.1)
    (ha : key a = some k) :
    ∀ kg ∈ insertGrouped acc k a, ∀ x ∈ kg.2, key x = some kg.1 := by
  induction acc with
  | nil =>
    intro kg hkg x hx
    simp only [insertGrouped, List.mem_singleton] at hkg
    subst hkg
    simp only [List.mem_singleton] at hx
    subst hx
    exact ha
  | cons hd tl ih =>
    intro kg hkg x hx
    simp only [insertGrouped] at hkg
    by_cases hk : hd.1 = k
    · rw [if_pos hk] at hkg
      rcases List.mem_cons.mp hkg with h | h
      · subst h
        rcases List.mem_append.mp hx with h' | h'
        · exact hacc hd (List.mem_cons_self _ _) x h'
        · simp only [List.mem_singleton] at h'
          subst h'
          rw [ha, hk]
      · exact hacc kg (List.mem_cons_of_mem _ h) x hx
    · rw [if_neg hk] at hkg
      rcases List.mem_cons.mp hkg with h | h
      · subst h
        exact hacc hd (List.mem_cons_self _ _) x hx
      · exact ih (fun kg' h' => hacc kg' (List.mem_cons_of_mem _ h')) kg h x hx

theorem groupByOpt_sound_aux {κ α : Type} [DecidableEq κ] (key : α → Option κ)
    (xs : List α) (acc : List (κ × List α))
    (hacc : ∀ kg ∈ acc, ∀ x ∈ kg.2, key x = some kg.1) :
    ∀ kg ∈ xs.foldl (fun acc a =>
        match key a with
        | some k => insertGrouped acc k a
        | none => acc) acc,
      ∀ x ∈ kg.2, key x = some kg.1 := by
  induction xs generalizing acc with
  | nil => exact hacc
  | cons hd tl ih =>
    intro kg hkg x hx
    simp only [List.foldl_cons] at hkg
    cases h : key hd with
    | some k =>
      rw [h] at hkg
      exact ih _ (insertGrouped_sound key acc k hd hacc h) kg hkg x hx
    | none =>
      rw [h] at hkg
      exact ih _ hacc kg hkg x hx

/-- Every member of a `groupByOpt` group carries that group's key. -/
theorem groupByOpt_sound {κ α : Type} [DecidableEq κ] (key : α → Option κ)
    (xs : List α) :
    ∀ kg ∈ groupByOpt key xs, ∀ x ∈ kg.2, key x = some kg.1 :=
  groupByOpt_sound_aux key xs [] (by intro kg h; cases h)

theorem foldl_push_filter_map {α β : Type} (p : α → Bool) (f : α → β)
    (l : List α) (acc : List β) :
    l.foldl (fun a x => if p x then a ++ [f x] else a) acc
      = acc ++ (l.filter p).map f := by
  induction l generalizing acc with
  | nil => simp
  | cons hd tl ih =>
    simp only [List.foldl_cons, List.filter_cons]
    by_cases h : p hd
    · simp [h, ih, List.append_assoc]
    · simp [h, ih]

theorem insertGrouped_mem {κ α : Type} [DecidableEq κ]
    (acc : List (κ × List α)) (k : κ) (a : α) :
    ∀ kg ∈ insertGrouped acc k a, ∀ x ∈ kg.2,
      x = a ∨ ∃ kg' ∈ acc, x ∈ kg'.2 := by
  induction acc with
  | nil =>
    intro kg hkg x hx
    simp only [insertGrouped, List.mem_singleton] at hkg
    subst hkg
    simp only [List.mem_singleton] at hx
    exact Or.inl hx
  | cons hd tl ih =>
    intro kg hkg x hx
    simp only [insertGrouped] at hkg
    by_cases hk : hd.1 = k
    · rw [if_pos hk] at hkg
      rcases List.mem_cons.mp hkg with h | h
      · subst h
        rcases List.mem_append.mp hx with h' | h'
        · exact Or.inr ⟨hd, List.mem_cons_self _ _, h'⟩
        · simp only [List.mem_singleton] at h'
          exact Or.inl h'
      · exact Or.inr ⟨kg, List.mem_cons_of_mem _ h, hx⟩
    · rw [if_neg hk] at hkg
      rcases List.mem_cons.mp hkg with h | h
      · subst h
        exact Or.inr ⟨hd, List.mem_cons_self _ _, hx⟩
      · rcases ih kg h x hx with h' | ⟨kg', hkg', hx'⟩
        · exact Or.inl h'
        · exact Or.inr ⟨kg', List.mem_cons_of_mem _ hkg', hx'⟩

theorem groupByOpt_mem_aux {κ α : Type} [DecidableEq κ] (key : α → Option κ)
    (xs : List α) (acc : List (κ × List α)) :
    ∀ kg ∈ xs.foldl (fun acc a =>
        match key a with
        | some k => insertGrouped acc k a
        | none => acc) acc,
      ∀ x ∈ kg.2, x ∈ xs ∨ ∃ kg' ∈ acc, x ∈ kg'.2 := by
  induction xs generalizing acc with
  | nil =>
    intro kg hkg x hx
    exact Or.inr ⟨kg, hkg, hx⟩
  | cons hd tl ih =>
    intro kg hkg x hx
    simp only [List.foldl_cons] at hkg
    cases h : key hd with
    | some k =>
      rw [h] at hkg
      rcases ih _ kg hkg x hx with h' | ⟨kg', hkg', hx'⟩
      · exact Or.inl (List.mem_cons_of_mem _ h')
      · rcases insertGrouped_mem acc k hd kg' hkg' x hx' with h'' | ⟨kg'', h1, h2⟩
        · subst h''
          exact Or.inl (List.mem_cons_self _ _)
        · exact Or.inr ⟨kg'', h1, h2⟩
    | none =>
      rw [h] at hkg
      rcases ih _ kg hkg x hx with h' | h'
      · exact Or.inl (List.mem_cons_of_mem _ h')
      · exact Or.inr h'

/-- Every member of a `groupByOpt` group comes from the input list. -/
theorem groupByOpt_mem {κ α : Type} [DecidableEq κ] (key : α → Option κ)
    (xs : List α) :
    ∀ kg ∈ groupByOpt key xs, ∀ x ∈ kg.2, x ∈ xs := by
  intro kg hkg x hx
  rcases groupByOpt_mem_aux key xs [] kg hkg x hx with h | ⟨kg', h, _⟩
  · exact h
  · cases h

/-! ## C1 — exact-duplicate groups share size and content hash -/

theorem exactDuplicates_sound (hashOf : FileInfo → Option String)
    (files : List FileInfo) :
    ∀ g ∈ exactDuplicates hashOf files, ∀ f ∈ g.files,
      f.size = g.size ∧ hashOf f = some g.hash := by
  intro g hg f hf
  simp only [exactDuplicates, List.mem_flatten, List.mem_map] at hg
  obtain ⟨gl, ⟨sg, hsg, rfl⟩, hgmem⟩ := hg
  simp only [List.mem_map, List.mem_filter] at hgmem
  obtain ⟨hgrp, ⟨hmem, _⟩, rfl⟩ := hgmem
  simp only [List.mem_filter] at hsg
  have hfsg : f ∈ sg.2 := groupByOpt_mem (hashKey hashOf) sg.2 hgrp hmem f hf
  have hsize := groupByOpt_sound (fun f => some f.size) files sg hsg.1 f hfsg
  have hhash := groupByOpt_sound (hashKey hashOf) sg.2 hgrp hmem f hf
  refine ⟨by simpa using hsize, ?_⟩
  cases h : hashOf f with
  | some hsh =>
    by_cases he : hsh = ""
    · simp [hashKey, h, he] at hhash
    · simp [hashKey, h, he] at hhash
      simp [hhash]
  | none => simp [hashKey, h] at hhash

/-- C1: for every pair of candidates placed in the same Exact duplicate
group, their `sizeBytes` agree and their content hashes agree and are
non-null (`exactDuplicates` models Pass 1 of
check_duplicates_enhanced.js's `run`, with the lazily computed
`getFileHash` as the parameter `hashOf`). -/
theorem c1_exact_group_share_size_hash (hashOf : FileInfo → Option String)
    (files : List FileInfo) (g : ExactGroup)
    (hg : g ∈ exactDuplicates hashOf files)
    (a b : FileInfo) (ha : a ∈ g.files) (hb : b ∈ g.files) :
    a.size = b.size ∧ hashOf a = hashOf b ∧ (hashOf a).isSome := by
  obtain ⟨hsa, hha⟩ := exactDuplicates_sound hashOf files g hg a ha
  obtain ⟨hsb, hhb⟩ := exactDuplicates_sound hashOf files g hg b hb
  refine ⟨hsa.trans hsb.symm, hha.trans hhb.symm, ?_⟩
  rw [hha]
  rfl

/-- Witness for C1: two byte-identical 100-byte files end up in one exact
group, and the theorem applies to that group. -/
theorem c1_witness :
    (⟨"/m/a.mp3", "a.mp3", 100, "x", "t", "x|t", none⟩ : FileInfo).size
      = (⟨"/m/b.mp3", "b.mp3", 100, "x", "t", "x|t", none⟩ : FileInfo).size
    ∧ (fun _ : FileInfo => some "d41d8cd9")
        ⟨"/m/a.mp3", "a.mp3", 100, "x", "t", "x|t", none⟩
      = (fun _ : FileInfo => some "d41d8cd9")
        ⟨"/m/b.mp3", "b.mp3", 100, "x", "t", "x|t", none⟩
    ∧ ((fun _ : FileInfo => some "d41d8cd9")
        ⟨"/m/a.mp3", "a.mp3", 100, "x", "t", "x|t", none⟩).isSome :=
  c1_exact_group_share_size_hash (fun _ => some "d41d8cd9")
    [⟨"/m/a.mp3", "a.mp3", 100, "x", "t", "x|t", none⟩,
     ⟨"/m/b.mp3", "b.mp3", 100, "x", "t", "x|t", none⟩]
    ⟨"d41d8cd9", 100,
     [⟨"/m/a.mp3", "a.mp3", 100, "x", "t", "x|t", none⟩,
      ⟨"/m/b.mp3", "b.mp3", 100, "x", "t", "x|t", none⟩]⟩
    (by decide)
    ⟨"/m/a.mp3", "a.mp3", 100, "x", "t", "x|t", none⟩
    ⟨"/m/b.mp3", "b.mp3", 100, "x", "t", "x|t", none⟩
    (by decide) (by decide)

/-! ## C3 — the score is exactly the spec's additive sum -/

theorem startsWithCL_head {a b : Char} {as bs s : List Char}
    (h1 : startsWithCL (a :: as) s = true)
    (h2 : startsWithCL (b :: bs) s = true) : a = b := by
  cases s with
  | nil => simp [startsWithCL] at h1
  | cons c cs =>
    simp only [startsWithCL, Bool.and_eq_true, beq_iff_eq] at h1 h2
    rw [h1.1, h2.1]

theorem not_flac_ape {n : List Char}
    (h1 : endsWithRevCI ['c','a','l','f','.'] n = true)
    (h2 : endsWithRevCI ['e','p','a','.'] n = true) : False := by
  have := startsWithCL_head h1 h2
  simp at this

theorem not_flac_wav {n : List Char}
    (h1 : endsWithRevCI ['c','a','l','f','.'] n = true)
    (h2 : endsWithRevCI ['v','a','w','.'] n = true) : False := by
  have := startsWithCL_head h1 h2
  simp at this

theorem not_ape_wav {n : List Char}
    (h1 : endsWithRevCI ['e','p','a','.'] n = true)
    (h2 : endsWithRevCI ['v','a','w','.'] n = true) : False := by
  have := startsWithCL_head h1 h2
  simp at this

theorem getScore_eq_sum (f : FileInfo) :
    getScore f
      = (if containsSub [' ', '-', ' '] f.name.data then (100 : ℚ) else 0)
        + (if !(f.name.data.any (fun c => tradBlacklist.contains c)) then 20 else 0)
        + (if f.size ≠ 0 then (f.size : ℚ) / 1024 / 1024 else 0)
        + (if endsWithRevCI ['c','a','l','f','.'] f.name.data then 50 else 0)
        + (if endsWithRevCI ['e','p','a','.'] f.name.data then 40 else 0)
        + (if endsWithRevCI ['v','a','w','.'] f.name.data then 30 else 0) := by
  simp only [getScore]
  split_ifs <;> ring

theorem sizeTerm_eq (s : Nat) :
    (if s ≠ 0 then (s : ℚ) / 1024 / 1024 else 0) = (s : ℚ) / 1048576 := by
  by_cases h : s = 0
  · simp [h]
  · rw [if_pos h, div_div]
    norm_num

theorem formatSum_eq (f : FileInfo) :
    (if endsWithRevCI ['c','a','l','f','.'] f.name.data then (50 : ℚ) else 0)
      + (if endsWithRevCI ['e','p','a','.'] f.name.data then 40 else 0)
      + (if endsWithRevCI ['v','a','w','.'] f.name.data then 30 else 0)
      = specFormatBonus f := by
  unfold specFormatBonus
  by_cases h1 : endsWithRevCI ['c','a','l','f','.'] f.name.data = true
  · by_cases h2 : endsWithRevCI ['e','p','a','.'] f.name.data = true
    · exact (not_flac_ape h1 h2).elim
    · by_cases h3 : endsWithRevCI ['v','a','w','.'] f.name.data = true
      · exact (not_flac_wav h1 h3).elim
      · simp [h1, h2, h3]
  · by_cases h2 : endsWithRevCI ['e','p','a','.'] f.name.data = true
    · by_cases h3 : endsWithRevCI ['v','a','w','.'] f.name.data = true
      · exact (not_ape_wav h2 h3).elim
      · simp [h1, h2, h3]
    · by_cases h3 : endsWithRevCI ['v','a','w','.'] f.name.data = true
      · simp [h1, h2, h3]
      · simp [h1, h2, h3]

/-- C3: `getScore` returns exactly the additive sum the spec states —
100 for a `" - "` in the raw filename, 20 for containing no blacklisted
traditional character, one point per megabyte (sizeBytes / 1,048,576),
and a format bonus of 50/40/30 for `.flac`/`.ape`/`.wav`, nothing else. -/
theorem c3_score_is_spec_sum (f : FileInfo) : getScore f = specScore f := by
  rw [getScore_eq_sum, specScore, sizeTerm_eq, ← formatSum_eq]
  ring

/-! ## C4 — ranking: stable sort on descending score only -/

theorem filter_insertDesc {α : Type} (f : α → ℚ) (q : ℚ) (x : α) (l : List α) :
    (insertDesc f x l).filter (fun z => decide (f z = q))
      = if f x = q
        then x :: l.filter (fun z => decide (f z = q))
        else l.filter (fun z => decide (f z = q)) := by
  induction l with
  | nil =>
    by_cases h : f x = q <;> simp [insertDesc, h]
  | cons y ys ih =>
    simp only [insertDesc]
    by_cases hlt : f x < f y
    · rw [if_pos hlt]
      by_cases h : f x = q
      · have hy : ¬ (f y = q) := by
          intro hyq
          rw [h] at hlt
          rw [hyq] at hlt
          exact lt_irrefl q hlt
        simp [h, hy, ih, List.filter_cons]
      · simp [h, ih, List.filter_cons]
    · rw [if_neg hlt]
      by_cases h : f x = q <;> simp [h, List.filter_cons]

theorem mem_insertDesc {α : Type} (f : α → ℚ) (x z : α) (l : List α) :
    z ∈ insertDesc f x l ↔ z = x ∨ z ∈ l := by
  induction l with
  | nil => simp [insertDesc]
  | cons y ys ih =>
    simp only [insertDesc]
    by_cases hlt : f x < f y
    · rw [if_pos hlt]
      simp only [List.mem_cons, ih]
      tauto
    · rw [if_neg hlt]
      simp only [List.mem_cons]
      try tauto

theorem pairwise_insertDesc {α : Type} (f : α → ℚ) (x : α) (l : List α)
    (hl : List.Pairwise (fun a b => f b ≤ f a) l) :
    List.Pairwise (fun a b => f b ≤ f a) (insertDesc f x l) := by
  induction l with
  | nil => simp [insertDesc]
  | cons y ys ih =>
    simp only [insertDesc]
    rcases List.pairwise_cons.mp hl with ⟨hy, hys⟩
    by_cases hlt : f x < f y
    · rw [if_pos hlt]
      refine List.pairwise_cons.mpr ⟨?_, ih hys⟩
      intro z hz
      rcases (mem_insertDesc f x z ys).mp hz with rfl | hz'
      · exact le_of_lt hlt
      · exact hy z hz'
    · rw [if_neg hlt]
      refine List.pairwise_cons.mpr ⟨?_, hl⟩
      intro z hz
      rcases List.mem_cons.mp hz with rfl | hz'
      · exact le_of_not_lt hlt
      · exact le_trans (hy z hz') (le_of_not_lt hlt)

theorem pairwise_sortByScoreDesc {α : Type} (f : α → ℚ) (l : List α) :
    List.Pairwise (fun a b => f b ≤ f a) (sortByScoreDesc f l) := by
  induction l with
  | nil => simp [sortByScoreDesc]
  | cons x xs ih => exact pairwise_insertDesc f x _ ih

theorem filter_sortByScoreDesc {α : Type} (f : α → ℚ) (q : ℚ) (l : List α) :
    (sortByScoreDesc f l).filter (fun z => decide (f z = q))
      = l.filter (fun z => decide (f z = q)) := by
  induction l with
  | nil => rfl
  | cons x xs ih =>
    simp only [sortByScoreDesc, filter_insertDesc, ih, List.filter_cons]
    by_cases h : f x = q <;> simp [h]

/-- C4 (amended): the enhanced detector ranks a group by the stable sort
on descending `getScore` alone — the output is sorted by descending score
and, for every score value, the members carrying that score keep their
filesystem enumeration order; no shorter-name or copy-pattern tie-break
exists. -/
theorem c4_rank_stable_descending (l : List FileInfo) (q : ℚ) :
    List.Pairwise (fun a b => getScore b ≤ getScore a)
      (sortByScoreDesc getScore l)
    ∧ (sortByScoreDesc getScore l).filter (fun z => decide (getScore z = q))
        = l.filter (fun z => decide (getScore z = q)) :=
  ⟨pairwise_sortByScoreDesc getScore l, filter_sortByScoreDesc getScore q l⟩

/-- Counterexample to C4 as stated: two equal-score members where the
first-enumerated has the longer, copy-patterned name; the comparator
`(a, b) => getScore(b) - getScore(a)` returns 0, so the stable sort keeps
the longer copy-named file first, not the shorter clean name. -/
theorem c4_counterexample :
    getScore ⟨"/m/1.mp3", "Song - Hello copy 2.mp3", 0, "", "", "", none⟩
      = getScore ⟨"/m/2.mp3", "Song - Hi.mp3", 0, "", "", "", none⟩
    ∧ ("Song - Hi.mp3" : String).length
        < ("Song - Hello copy 2.mp3" : String).length
    ∧ containsSub ['c','o','p','y'] ("Song - Hello copy 2.mp3" : String).data
        = true
    ∧ containsSub ['c','o','p','y'] ("Song - Hi.mp3" : String).data = false
    ∧ sortByScoreDesc getScore
        [⟨"/m/1.mp3", "Song - Hello copy 2.mp3", 0, "", "", "", none⟩,
         ⟨"/m/2.mp3", "Song - Hi.mp3", 0, "", "", "", none⟩]
        = [⟨"/m/1.mp3", "Song - Hello copy 2.mp3", 0, "", "", "", none⟩,
           ⟨"/m/2.mp3", "Song - Hi.mp3", 0, "", "", "", none⟩] := by
  have heq : getScore ⟨"/m/1.mp3", "Song - Hello copy 2.mp3", 0, "", "", "", none⟩
      = getScore ⟨"/m/2.mp3", "Song - Hi.mp3", 0, "", "", "", none⟩ := by
    simp +decide [getScore]
  have hlt : ¬ getScore ⟨"/m/1.mp3", "Song - Hello copy 2.mp3", 0, "", "", "", none⟩
      < getScore ⟨"/m/2.mp3", "Song - Hi.mp3", 0, "", "", "", none⟩ := by
    rw [heq]
    exact lt_irrefl _
  refine ⟨heq, by decide, by decide, by decide, ?_⟩
  simp only [sortByScoreDesc, insertDesc, if_neg hlt]

/-! ## C6 — the descriptive-suffix stripping loop terminates -/

theorem dropWhile_length_le (p : Char → Bool) (l : List Char) :
    (l.dropWhile p).length ≤ l.length := by
  induction l with
  | nil => simp
  | cons c cs ih =>
    cases h : p c <;> simp [List.dropWhile, h] <;> omega

theorem rdsScan_shortens (rest : List Char) :
    ∀ kept pre, rdsScan kept rest = some pre →
      pre.length < kept.length + rest.length := by
  induction rest with
  | nil =>
    intro kept pre h
    simp [rdsScan] at h
  | cons c cs ih =>
    intro kept pre h
    simp only [rdsScan] at h
    by_cases hm : tailMatch (c :: cs) = true
    · rw [if_pos hm] at h
      have := Option.some.inj h
      subst this
      calc ((kept.dropWhile isWS).reverse).length
          = (kept.dropWhile isWS).length := List.length_reverse _
        _ ≤ kept.length := dropWhile_length_le _ _
        _ < kept.length + (c :: cs).length := by simp
    · rw [if_neg hm] at h
      have h' := ih (c :: kept) pre h
      simp only [List.length_cons] at h'
      simpa [List.length_cons, Nat.add_comm, Nat.add_left_comm] using h'

theorem rdsOnce_shortens_or_fixes (s : List Char) :
    rdsOnce s = s ∨ (rdsOnce s).length < s.length := by
  unfold rdsOnce
  cases h : rdsScan [] s with
  | none => exact Or.inl rfl
  | some pre =>
    right
    have := rdsScan_shortens s [] pre h
    simpa using this

theorem rdsLoopF_fix : ∀ (n : Nat) (s : List Char), s.length < n →
    rdsOnce (rdsLoopF n s) = rdsLoopF n s := by
  intro n
  induction n with
  | zero => intro s h; omega
  | succ n ih =>
    intro s h
    simp only [rdsLoopF]
    by_cases he : rdsOnce s = s
    · rw [if_pos he]
      exact he
    · rw [if_neg he]
      rcases rdsOnce_shortens_or_fixes s with h' | h'
      · exact absurd h' he
      · exact ih (rdsOnce s) (by omega)

/-- C6: the suffix-stripping loop of `removeDescriptiveSuffix` terminates
on every input — one `replace` application (`rdsOnce`) either leaves the
string unchanged (and the do/while exits) or strictly shortens it, so the
fixpoint is reached within `length + 1` iterations; `rdsLoop` (and with it
`removeDescriptiveSuffix`) is a total function reaching that fixpoint. -/
theorem c6_suffix_strip_terminates (s : List Char) :
    (rdsOnce s = s ∨ (rdsOnce s).length < s.length)
    ∧ rdsOnce (rdsLoop s) = rdsLoop s ∧
      removeDescriptiveSuffixL s = trimL (rdsLoop s) :=
  ⟨rdsOnce_shortens_or_fixes s,
   rdsLoopF_fix (s.length + 1) s (Nat.lt_succ_self _), rfl⟩

/-! ## C2 / C10 — exact-duplicate members in the semantic pass -/

theorem semanticDuplicates_eq (eds : List ExactGroup) (files : List FileInfo) :
    semanticDuplicates eds files
      = ((songMap files).filter (semKeep eds)).map
          (fun kg => SemGroup.mk kg.1 kg.2) := by
  unfold semanticDuplicates
  simpa using
    foldl_push_filter_map (semKeep eds) (fun kg => SemGroup.mk kg.1 kg.2)
      (songMap files) []

theorem mem_semanticDuplicates_iff (eds : List ExactGroup)
    (files : List FileInfo) (k : String) (g : List FileInfo) :
    SemGroup.mk k g ∈ semanticDuplicates eds files
      ↔ (k, g) ∈ songMap files ∧ semKeep eds (k, g) = true := by
  rw [semanticDuplicates_eq]
  simp only [List.mem_map, List.mem_filter]
  constructor
  · rintro ⟨⟨k', g'⟩, ⟨hm, hk⟩, heq⟩
    simp only [SemGroup.mk.injEq] at heq
    obtain ⟨rfl, rfl⟩ := heq
    exact ⟨hm, hk⟩
  · rintro ⟨hm, hk⟩
    exact ⟨(k, g), ⟨hm, hk⟩, rfl⟩

/-- C10: a multi-member semantic key partition is suppressed from the
output iff all of its members belong to exact groups and those exact
groups contribute a single content hash; with two or more distinct hashes,
or any member outside every exact group, the partition is reported. -/
theorem c10_semantic_suppression_iff (hashOf : FileInfo → Option String)
    (files : List FileInfo) (k : String) (g : List FileInfo)
    (hmem : (k, g) ∈ songMap files) (hlen : g.length > 1) :
    (SemGroup.mk k g ∉ semanticDuplicates (exactDuplicates hashOf files) files)
      ↔ (g.all (fun f =>
            (exactDupPaths (exactDuplicates hashOf files)).contains f.path) = true
         ∧ (uniqueHashes (exactDuplicates hashOf files) g).length ≤ 1) := by
  rw [not_congr (mem_semanticDuplicates_iff _ files k g)]
  simp [semKeep, hmem, hlen, -Bool.not_eq_true, Bool.not_eq_true',
    Bool.and_eq_false_iff]

/-- Witness for C10: two byte-identical files whose semantic partition is
entirely that one exact group, hence suppressed. -/
theorem c10_witness :
    (SemGroup.mk "x|t"
        [⟨"/m/a.mp3", "a.mp3", 100, "x", "t", "x|t", none⟩,
         ⟨"/m/b.mp3", "b.mp3", 100, "x", "t", "x|t", none⟩]
      ∉ semanticDuplicates
          (exactDuplicates (fun _ => some "h1")
            [⟨"/m/a.mp3", "a.mp3", 100, "x", "t", "x|t", none⟩,
             ⟨"/m/b.mp3", "b.mp3", 100, "x", "t", "x|t", none⟩])
          [⟨"/m/a.mp3", "a.mp3", 100, "x", "t", "x|t", none⟩,
           ⟨"/m/b.mp3", "b.mp3", 100, "x", "t", "x|t", none⟩])
    ↔ (([⟨"/m/a.mp3", "a.mp3", 100, "x", "t", "x|t", none⟩,
         ⟨"/m/b.mp3", "b.mp3", 100, "x", "t", "x|t", none⟩] :
          List FileInfo).all (fun f =>
            (exactDupPaths (exactDuplicates (fun _ => some "h1")
              [⟨"/m/a.mp3", "a.mp3", 100, "x", "t", "x|t", none⟩,
               ⟨"/m/b.mp3", "b.mp3", 100, "x", "t", "x|t", none⟩])).contains
              f.path) = true
        ∧ (uniqueHashes
            (exactDuplicates (fun _ => some "h1")
              [⟨"/m/a.mp3", "a.mp3", 100, "x", "t", "x|t", none⟩,
               ⟨"/m/b.mp3", "b.mp3", 100, "x", "t", "x|t", none⟩])
            [⟨"/m/a.mp3", "a.mp3", 100, "x", "t", "x|t", none⟩,
             ⟨"/m/b.mp3", "b.mp3", 100, "x", "t", "x|t", none⟩]).length ≤ 1) :=
  c10_semantic_suppression_iff (fun _ => some "h1") _ "x|t" _
    (by decide) (by decide)

/-- C2 (amended): the enhanced detector does not exclude exact-duplicate
members from Pass 2 — every emitted semantic group merely has ≥ 2 members
and is not made up exclusively of exact-duplicate members sharing one
content hash (only such fully-covered single-hash partitions are
suppressed). -/
theorem c2_semantic_group_not_single_exact (hashOf : FileInfo → Option String)
    (files : List FileInfo) (sd : SemGroup)
    (hsd : sd ∈ semanticDuplicates (exactDuplicates hashOf files) files) :
    sd.files.length > 1
    ∧ ¬((sd.files.all (fun f =>
          (exactDupPaths (exactDuplicates hashOf files)).contains f.path) = true)
        ∧ (uniqueHashes (exactDuplicates hashOf files) sd.files).length ≤ 1) := by
  obtain ⟨k, g⟩ := sd
  rw [mem_semanticDuplicates_iff] at hsd
  obtain ⟨hm, hk⟩ := hsd
  simp only [semKeep, Bool.and_eq_true, decide_eq_true_eq,
    Bool.not_eq_true', Bool.and_eq_false_iff] at hk
  obtain ⟨hlen, hrest⟩ := hk
  refine ⟨hlen, ?_⟩
  rintro ⟨hall, hle⟩
  rcases hrest with h | h
  · simp only at hall
    rw [hall] at h
    cases h
  · simp only [decide_eq_false_iff_not] at h
    exact h hle

/-- Counterexample to C2 as stated: two byte-identical files plus a third
distinct file sharing their normalized key.  Pass 1 groups the identical
pair, yet Pass 2 reports a semantic group containing those same two
exact-duplicate members (with the third), so exact-dup members are not
excluded from Pass 2. -/
theorem c2_counterexample :
    (ExactGroup.mk "h1" 100
        [⟨"/m/a.mp3", "a.mp3", 100, "x", "t", "x|t", none⟩,
         ⟨"/m/b.mp3", "b.mp3", 100, "x", "t", "x|t", none⟩]
      ∈ exactDuplicates (fun f => if f.size = 100 then some "h1" else some "h2")
          [⟨"/m/a.mp3", "a.mp3", 100, "x", "t", "x|t", none⟩,
           ⟨"/m/b.mp3", "b.mp3", 100, "x", "t", "x|t", none⟩,
           ⟨"/m/c.mp3", "c.mp3", 50, "x", "t", "x|t", none⟩])
    ∧ (⟨"/m/a.mp3", "a.mp3", 100, "x", "t", "x|t", none⟩ : FileInfo)
        ∈ [⟨"/m/a.mp3", "a.mp3", 100, "x", "t", "x|t", none⟩,
           ⟨"/m/b.mp3", "b.mp3", 100, "x", "t", "x|t", none⟩]
    ∧ (SemGroup.mk "x|t"
        [⟨"/m/a.mp3", "a.mp3", 100, "x", "t", "x|t", none⟩,
         ⟨"/m/b.mp3", "b.mp3", 100, "x", "t", "x|t", none⟩,
         ⟨"/m/c.mp3", "c.mp3", 50, "x", "t", "x|t", none⟩]
      ∈ semanticDuplicates
          (exactDuplicates (fun f => if f.size = 100 then some "h1" else some "h2")
            [⟨"/m/a.mp3", "a.mp3", 100, "x", "t", "x|t", none⟩,
             ⟨"/m/b.mp3", "b.mp3", 100, "x", "t", "x|t", none⟩,
             ⟨"/m/c.mp3", "c.mp3", 50, "x", "t", "x|t", none⟩])
          [⟨"/m/a.mp3", "a.mp3", 100, "x", "t", "x|t", none⟩,
           ⟨"/m/b.mp3", "b.mp3", 100, "x", "t", "x|t", none⟩,
           ⟨"/m/c.mp3", "c.mp3", 50, "x", "t", "x|t", none⟩])
    ∧ (⟨"/m/a.mp3", "a.mp3", 100, "x", "t", "x|t", none⟩ : FileInfo)
        ∈ [⟨"/m/a.mp3", "a.mp3", 100, "x", "t", "x|t", none⟩,
           ⟨"/m/b.mp3", "b.mp3", 100, "x", "t", "x|t", none⟩,
           ⟨"/m/c.mp3", "c.mp3", 50, "x", "t", "x|t", none⟩] := by
  refine ⟨by decide, by decide, by decide, by decide⟩

/-- Witness for C2's amended statement, at the counterexample's input. -/
theorem c2_witness :
    ((SemGroup.mk "x|t"
        [⟨"/m/a.mp3", "a.mp3", 100, "x", "t", "x|t", none⟩,
         ⟨"/m/b.mp3", "b.mp3", 100, "x", "t", "x|t", none⟩,
         ⟨"/m/c.mp3", "c.mp3", 50, "x", "t", "x|t", none⟩]).files.length > 1) :=
  (c2_semantic_group_not_single_exact
    (fun f => if f.size = 100 then some "h1" else some "h2")
    [⟨"/m/a.mp3", "a.mp3", 100, "x", "t", "x|t", none⟩,
     ⟨"/m/b.mp3", "b.mp3", 100, "x", "t", "x|t", none⟩,
     ⟨"/m/c.mp3", "c.mp3", 50, "x", "t", "x|t", none⟩]
    (SemGroup.mk "x|t"
      [⟨"/m/a.mp3", "a.mp3", 100, "x", "t", "x|t", none⟩,
       ⟨"/m/b.mp3", "b.mp3", 100, "x", "t", "x|t", none⟩,
       ⟨"/m/c.mp3", "c.mp3", 50, "x", "t", "x|t", none⟩])
    (by decide)).1

/-! ## C7 — the mover script's semantic-pass exclusion for Unknown-artist
titles.  The code gates on the CLEANED title's length
(`cleanTitle.length > 4` where
`cleanTitle = info.title.toLowerCase().replace(/\s+/g, '')`), and
`toLowerCase` can lengthen a string, so the raw parsed-title length does
not determine exclusion. -/

/-- C8 (amended): `parseSongInfo` of check_duplicates_utils.js is total by
construction; when none of the three patterns sets an artist, the result
is `artist = defaultArtist` (when truthy, else `"Unknown"`) and `title` =
the name minus extension and numeric track prefix with a trailing
recognized parenthesized tag also stripped (and trimmed); and an artist
the patterns parse as literal `"Unknown"` (case-insensitively) is replaced
by a provided non-empty fallback artist. -/
theorem c8_parser_fallbacks (name1 name2 : String) (fb : Option String)
    (d : String)
    (h1 : ¬ containsSub [' ', '-', ' '] (nameNoExtOf name1) = true)
    (h2 : ¬ containsSub ['-'] (nameNoExtOf name1) = true)
    (h3 : ¬((nameNoExtOf name1).any openCh = true
            ∧ (nameNoExtOf name1).any closeCh = true))
    (hd : d ≠ "")
    (hunk : lowerL (patternParse (nameNoExtOf name2)).1 = "unknown".data) :
    parseSongInfoU name1 fb
        = SongInfo.mk (fbValue fb) ⟨tagStripU (nameNoExtOf name1)⟩
    ∧ (parseSongInfoU name2 (some d)).artist = d := by
  constructor
  · have hpp : patternParse (nameNoExtOf name1) = ([], []) := by
      unfold patternParse
      rw [if_neg h1, if_neg h2, if_neg h3]
    simp only [parseSongInfoU, hpp]
    simp
  · simp only [parseSongInfoU]
    rw [if_pos (Or.inr hunk)]
    show String.mk (if d = "" then ("Unknown" : String) else d).data = d
    rw [if_neg hd]

/-- Witness for C8: `mysong.mp3` matches no pattern and degrades to the
fallback artist; `Unknown - Song.mp3` parses artist `Unknown`, replaced by
the provided fallback. -/
theorem c8_witness :
    parseSongInfoU "mysong.mp3" (some "Faye")
        = SongInfo.mk (fbValue (some "Faye"))
            ⟨tagStripU (nameNoExtOf "mysong.mp3")⟩
    ∧ (parseSongInfoU "Unknown - Song.mp3" (some "Faye")).artist = "Faye" :=
  c8_parser_fallbacks "mysong.mp3" "Unknown - Song.mp3" (some "Faye") "Faye"
    (by decide) (by decide) (by decide) (by decide) (by decide)

/-- Counterexample to C8 as stated: for `"(Live).mp3"` (no pattern sets an
artist), the returned title is not the name minus its numeric track prefix
(`"(Live)"`) — the recognized-tag strip empties it. -/
theorem c8_counterexample :
    (parseSongInfoU "(Live).mp3" none).title = ""
    ∧ nameNoExtOf "(Live).mp3" = "(Live)".data
    ∧ ("" : String) ≠ "(Live)"
    ∧ (parseSongInfoU "(Live).mp3" none).artist = "Unknown" := by
  refine ⟨by decide, by decide, by decide, by decide⟩

/-! ## C9 — a removed audio file's lyric sidecar moves with it -/

theorem groupMoves_mem (dir : String) (sorted : List FileInfo)
    (f : FileInfo) (hf : f ∈ sorted.drop 1) (l : String)
    (hl : f.lrcPath = some l) :
    MoveOp.mk f.path dir ∈ groupMoves dir sorted
    ∧ MoveOp.mk l dir ∈ groupMoves dir sorted := by
  unfold groupMoves
  constructor
  · exact List.mem_flatten.mpr
      ⟨MoveOp.mk f.path dir ::
        (match f.lrcPath with
         | some l => [MoveOp.mk l dir]
         | none => []),
       List.mem_map.mpr ⟨f, hf, rfl⟩, List.mem_cons_self _ _⟩
  · refine List.mem_flatten.mpr
      ⟨MoveOp.mk f.path dir ::
        (match f.lrcPath with
         | some l => [MoveOp.mk l dir]
         | none => []),
       List.mem_map.mpr ⟨f, hf, rfl⟩, ?_⟩
    rw [hl]
    exact List.mem_cons_of_mem _ (List.mem_singleton.mpr rfl)

theorem emitGroups_mem (dir : String) (g : List FileInfo)
    (l : List (String × List FileInfo)) (hdg : (dir, g) ∈ l) (op : MoveOp)
    (hop : op ∈ groupMoves dir (sortByScoreDesc getScore g)) :
    op ∈ emitGroups l := by
  induction l with
  | nil => cases hdg
  | cons hd tl ih =>
    obtain ⟨d', g'⟩ := hd
    rcases List.mem_cons.mp hdg with heq | h
    · obtain ⟨rfl, rfl⟩ := Prod.mk.injEq .. ▸ heq
      exact List.mem_append.mpr (Or.inl hop)
    · exact List.mem_append.mpr (Or.inr (ih h))

theorem cleanupMoves_eq (hashOf : FileInfo → Option String)
    (files : List FileInfo) :
    cleanupMoves hashOf files
      = emitGroups ((withIdx 0 (exactDuplicates hashOf files)).map
          (fun id => (exactDir id.1, id.2.files)))
        ++ emitGroups
            ((withIdx 0 (semanticDuplicates (exactDuplicates hashOf files)
                files)).map
              (fun id => (semanticDir id.1 id.2.key, id.2.files))) := rfl

theorem withIdx_mem {α : Type} (l : List α) (x : α) (hx : x ∈ l) :
    ∀ n, ∃ i, (i, x) ∈ withIdx n l := by
  induction l with
  | nil => cases hx
  | cons hd tl ih =>
    intro n
    rcases List.mem_cons.mp hx with rfl | h
    · exact ⟨n, List.mem_cons_self _ _⟩
    · obtain ⟨i, hi⟩ := ih h (n + 1)
      exact ⟨i, List.mem_cons_of_mem _ hi⟩

/-- C9: in the emitted cleanup script, every removable (non-keeper) member
of an exact or semantic group that has an associated lyric sidecar
contributes a move of that `.lrc` into the same quarantine directory as
the move of the audio file itself. -/
theorem c9_lyric_moves_with_audio (hashOf : FileInfo → Option String)
    (files : List FileInfo) (g : List FileInfo)
    (hg : g ∈ (exactDuplicates hashOf files).map (fun d => d.files)
          ∨ g ∈ (semanticDuplicates (exactDuplicates hashOf files)
                  files).map (fun d => d.files))
    (f : FileInfo) (hf : f ∈ (sortByScoreDesc getScore g).drop 1)
    (l : String) (hl : f.lrcPath = some l) :
    ∃ dir, MoveOp.mk f.path dir ∈ cleanupMoves hashOf files
      ∧ MoveOp.mk l dir ∈ cleanupMoves hashOf files := by
  rcases hg with hge | hgs
  · obtain ⟨d, hd, rfl⟩ := List.mem_map.mp hge
    obtain ⟨i, hi⟩ := withIdx_mem _ d hd 0
    obtain ⟨hop1, hop2⟩ :=
      groupMoves_mem (exactDir i) (sortByScoreDesc getScore d.files) f hf l hl
    have hdg : (exactDir i, d.files)
        ∈ (withIdx 0 (exactDuplicates hashOf files)).map
            (fun id => (exactDir id.1, id.2.files)) :=
      List.mem_map.mpr ⟨(i, d), hi, rfl⟩
    refine ⟨exactDir i, ?_, ?_⟩
    · rw [cleanupMoves_eq]
      exact List.mem_append.mpr
        (Or.inl (emitGroups_mem (exactDir i) d.files _ hdg _ hop1))
    · rw [cleanupMoves_eq]
      exact List.mem_append.mpr
        (Or.inl (emitGroups_mem (exactDir i) d.files _ hdg _ hop2))
  · obtain ⟨d, hd, rfl⟩ := List.mem_map.mp hgs
    obtain ⟨i, hi⟩ := withIdx_mem _ d hd 0
    obtain ⟨hop1, hop2⟩ :=
      groupMoves_mem (semanticDir i d.key) (sortByScoreDesc getScore d.files)
        f hf l hl
    have hdg : (semanticDir i d.key, d.files)
        ∈ (withIdx 0 (semanticDuplicates (exactDuplicates hashOf files)
            files)).map
            (fun id => (semanticDir id.1 id.2.key, id.2.files)) :=
      List.mem_map.mpr ⟨(i, d), hi, rfl⟩
    refine ⟨semanticDir i d.key, ?_, ?_⟩
    · rw [cleanupMoves_eq]
      exact List.mem_append.mpr
        (Or.inr (emitGroups_mem (semanticDir i d.key) d.files _ hdg _ hop1))
    · rw [cleanupMoves_eq]
      exact List.mem_append.mpr
        (Or.inr (emitGroups_mem (semanticDir i d.key) d.files _ hdg _ hop2))

/-- Witness for C9: two byte-identical files; the loser carries a `.lrc`
sidecar, which is moved along with it. -/
theorem c9_witness :
    ∃ dir,
      MoveOp.mk "/m/b.mp3" dir
        ∈ cleanupMoves (fun _ => some "h1")
            [⟨"/m/a.mp3", "a - x.mp3", 0, "a", "x", "a|x", none⟩,
             ⟨"/m/b.mp3", "b.mp3", 0, "a", "x", "a|x", some "/m/b.lrc"⟩]
      ∧ MoveOp.mk "/m/b.lrc" dir
        ∈ cleanupMoves (fun _ => some "h1")
            [⟨"/m/a.mp3", "a - x.mp3", 0, "a", "x", "a|x", none⟩,
             ⟨"/m/b.mp3", "b.mp3", 0, "a", "x", "a|x", some "/m/b.lrc"⟩] := by
  have hs : ¬ getScore ⟨"/m/a.mp3", "a - x.mp3", 0, "a", "x", "a|x", none⟩
      < getScore ⟨"/m/b.mp3", "b.mp3", 0, "a", "x", "a|x", some "/m/b.lrc"⟩ := by
    simp +decide [getScore]
  have hsort : sortByScoreDesc getScore
      [⟨"/m/a.mp3", "a - x.mp3", 0, "a", "x", "a|x", none⟩,
       ⟨"/m/b.mp3", "b.mp3", 0, "a", "x", "a|x", some "/m/b.lrc"⟩]
      = [⟨"/m/a.mp3", "a - x.mp3", 0, "a", "x", "a|x", none⟩,
         ⟨"/m/b.mp3", "b.mp3", 0, "a", "x", "a|x", some "/m/b.lrc"⟩] := by
    simp only [sortByScoreDesc, insertDesc, if_neg hs]
  exact c9_lyric_moves_with_audio (fun _ => some "h1")
    [⟨"/m/a.mp3", "a - x.mp3", 0, "a", "x", "a|x", none⟩,
     ⟨"/m/b.mp3", "b.mp3", 0, "a", "x", "a|x", some "/m/b.lrc"⟩]
    [⟨"/m/a.mp3", "a - x.mp3", 0, "a", "x", "a|x", none⟩,
     ⟨"/m/b.mp3", "b.mp3", 0, "a", "x", "a|x", some "/m/b.lrc"⟩]
    (Or.inr (by decide))
    ⟨"/m/b.mp3", "b.mp3", 0, "a", "x", "a|x", some "/m/b.lrc"⟩
    (by rw [hsort]; decide)
    "/m/b.lrc" rfl

/-! ## C5 — idempotence analysis of the title pipeline

The composite pipeline (suffix strip, then the `getSongKey` folds) is NOT
idempotent (counterexample below: a traditional character inside a
descriptive suffix is folded only after the suffix check ran).  The folds
themselves — traditional→simplified, Roman-numeral, lowercase, whitespace
strip — are idempotent as a composite, which the following development
establishes. -/

theorem tblGet_mem {tbl : List (Char × Char)} {c v : Char}
    (h : tblGet tbl c = some v) : (c, v) ∈ tbl := by
  induction tbl with
  | nil => cases h
  | cons hd tl ih =>
    obtain ⟨k, w⟩ := hd
    simp only [tblGet] at h
    by_cases hk : c = k
    · rw [if_pos hk] at h
      obtain rfl := Option.some.inj h
      rw [hk]
      exact List.mem_cons_self _ _
    · rw [if_neg hk] at h
      exact List.mem_cons_of_mem _ (ih h)

theorem lc_idem (c : Char) : lcChar (lcChar c) = lcChar c := by
  unfold lcChar
  cases h : tblGet ucPairs c with
  | some v =>
    have hv : (c, v) ∈ ucPairs := tblGet_mem h
    have : ∀ p ∈ ucPairs, tblGet ucPairs p.2 = none := by decide
    rw [this (c, v) hv]
  | none => rw [h]

theorem lc_isLetter (c : Char) : isLetter (lcChar c) = isLetter c := by
  unfold lcChar
  cases h : tblGet ucPairs c with
  | some v =>
    have hv : (c, v) ∈ ucPairs := tblGet_mem h
    have h1 : ∀ p ∈ ucPairs, isLetter p.1 = true ∧ isLetter p.2 = true := by
      decide
    rw [(h1 (c, v) hv).2, (h1 (c, v) hv).1]
  | none => rfl

theorem simp_lc_simp_fix (e : Char) :
    simpChar (lcChar (simpChar e)) = lcChar (simpChar e) := by
  cases h : tblGet TRAD_TO_SIMP e with
  | some v =>
    have hv : (e, v) ∈ TRAD_TO_SIMP := tblGet_mem h
    have hfix : ∀ p ∈ TRAD_TO_SIMP, simpChar (lcChar p.2) = lcChar p.2 := by
      decide
    have hse : simpChar e = v := by unfold simpChar; rw [h]
    rw [hse]
    exact hfix (e, v) hv
  | none =>
    have hse : simpChar e = e := by unfold simpChar; rw [h]
    rw [hse]
    cases h2 : tblGet ucPairs e with
    | some w =>
      have hw : (e, w) ∈ ucPairs := tblGet_mem h2
      have hfix : ∀ p ∈ ucPairs, simpChar p.2 = p.2 := by decide
      have hle : lcChar e = w := by unfold lcChar; rw [h2]
      rw [hle]
      exact hfix (e, w) hw
    | none =>
      have hle : lcChar e = e := by unfold lcChar; rw [h2]
      rw [hle]
      exact hse

theorem simp_lc_digit_fix :
    ∀ c ∈ digitChars, simpChar (lcChar c) = lcChar c := by decide

theorem letter_not_ws (c : Char) (h : isLetter c = true) : isWS c = false := by
  have hm : c ∈ letterChars := by simpa [isLetter] using h
  have hall : ∀ d ∈ letterChars, isWS d = false := by decide
  exact hall c hm

/-! ### Facts about the chunk decomposition -/

theorem chunksAux_flatten (z : List Char) :
    ∀ b cur, (chunksAux b cur z).flatten = cur.reverse ++ z := by
  induction z with
  | nil => intro b cur; simp [chunksAux]
  | cons c cs ih =>
    intro b cur
    simp only [chunksAux]
    by_cases h : isLetter c = b
    · rw [if_pos h, ih]
      simp
    · rw [if_neg h]
      simp [ih]

theorem chunks_flatten (s : List Char) : (chunks s).flatten = s := by
  cases s with
  | nil => rfl
  | cons c cs =>
    simp [chunks, chunksAux_flatten]

theorem chunksAux_alt (z : List Char) :
    ∀ b cur ob, cur ≠ [] → (∀ c ∈ cur, isLetter c = b) → some b ≠ ob →
      AltOK ob (chunksAux b cur z) := by
  induction z with
  | nil =>
    intro b cur ob hne hb hob
    refine ⟨b, ⟨by simpa using hne, ?_⟩, hob, trivial⟩
    intro c hc
    exact hb c (by simpa using hc)
  | cons c cs ih =>
    intro b cur ob hne hb hob
    simp only [chunksAux]
    by_cases h : isLetter c = b
    · rw [if_pos h]
      refine ih b (c :: cur) ob (by simp) ?_ hob
      intro d hd
      rcases List.mem_cons.mp hd with rfl | hd'
      · exact h
      · exact hb d hd'
    · rw [if_neg h]
      refine ⟨b, ⟨by simpa using hne, ?_⟩, hob, ?_⟩
      · intro d hd
        exact hb d (by simpa using hd)
      · exact ih (isLetter c) [c] (some b) (by simp)
          (by intro d hd; rcases List.mem_singleton.mp hd with rfl; rfl)
          (fun hsome => h (Option.some.inj hsome))

theorem chunks_alt (s : List Char) : AltOK none (chunks s) := by
  cases s with
  | nil => trivial
  | cons c cs =>
    exact chunksAux_alt cs (isLetter c) [c] none (by simp)
      (by intro d hd; rcases List.mem_singleton.mp hd with rfl; rfl)
      (by simp)

theorem altOK_chunky {l : List (List Char)} :
    ∀ {ob}, AltOK ob l → ∀ w ∈ l, ∃ b, Chunky b w := by
  induction l with
  | nil => intro ob _ w hw; cases hw
  | cons hd tl ih =>
    intro ob h w hw
    obtain ⟨b, hb, _, hrest⟩ := h
    rcases List.mem_cons.mp hw with rfl | hw'
    · exact ⟨b, hb⟩
    · exact ih hrest w hw'

theorem chunks_chunky (s : List Char) :
    ∀ w ∈ chunks s, ∃ b, Chunky b w :=
  altOK_chunky (chunks_alt s)

theorem altOK_weaken {l : List (List Char)} {ob : Option Bool}
    (h : AltOK ob l) : AltOK none l := by
  cases l with
  | nil => trivial
  | cons hd tl =>
    obtain ⟨b, hb, _, hrest⟩ := h
    exact ⟨b, hb, by simp, hrest⟩

theorem chunksAux_run (w' : List Char) :
    ∀ b cur z, (∀ c ∈ w', isLetter c = b) →
      chunksAux b cur (w' ++ z) = chunksAux b (w'.reverse ++ cur) z := by
  induction w' with
  | nil => intro b cur z _; simp
  | cons c cs ih =>
    intro b cur z hw
    simp only [List.cons_append, chunksAux]
    rw [if_pos (hw c (List.mem_cons_self _ _))]
    rw [show chunksAux b (c :: cur) (cs.append z)
          = chunksAux b (c :: cur) (cs ++ z) from rfl,
      ih b (c :: cur) z (fun d hd => hw d (List.mem_cons_of_mem _ hd))]
    simp

theorem chunksAux_boundary (z : List Char) (b : Bool) (cur : List Char)
    (h : ∀ c cs, z = c :: cs → isLetter c ≠ b) :
    chunksAux b cur z = cur.reverse :: chunks z := by
  cases z with
  | nil => rfl
  | cons c cs =>
    simp only [chunksAux]
    rw [if_neg (h c cs rfl)]
    rfl

theorem chunks_of_altOK {m : List (List Char)} (h : AltOK none m) :
    chunks m.flatten = m := by
  induction m with
  | nil => rfl
  | cons w rest ih =>
    obtain ⟨b, ⟨hne, hb⟩, _, hrest⟩ := h
    cases w with
    | nil => exact absurd rfl hne
    | cons c w' =>
      have hc : isLetter c = b := hb c (List.mem_cons_self _ _)
      have hw' : ∀ d ∈ w', isLetter d = b :=
        fun d hd => hb d (List.mem_cons_of_mem _ hd)
      have hbound : ∀ d ds, rest.flatten = d :: ds → isLetter d ≠ b := by
        intro d ds hfl
        cases rest with
        | nil => cases hfl
        | cons v vs =>
          obtain ⟨b', ⟨hvne, hvb⟩, hbb', _⟩ := hrest
          cases v with
          | nil => exact absurd rfl hvne
          | cons cv v' =>
            have : d = cv := by
              simpa using congrArg (fun l => l.headD d) hfl.symm
            rw [this, hvb cv (List.mem_cons_self _ _)]
            intro hEq
            exact hbb' (by rw [hEq])
      show chunks (c :: (w' ++ rest.flatten)) = (c :: w') :: rest
      simp only [chunks]
      rw [hc, chunksAux_run w' b [c] rest.flatten hw',
        chunksAux_boundary rest.flatten b (w'.reverse ++ [c]) hbound,
        ih (altOK_weaken hrest)]
      simp

/-! ### Facts about `glue` (renormalizing a modified chunk list) -/

theorem ckind_chunky {b : Bool} {w : List Char} (h : Chunky b w) :
    ckind w = b := by
  obtain ⟨hne, hb⟩ := h
  cases w with
  | nil => exact absurd rfl hne
  | cons c cs => exact hb c (List.mem_cons_self _ _)

theorem ckind_append {w : List Char} (v : List Char) (h : w ≠ []) :
    ckind (w ++ v) = ckind w := by
  cases w with
  | nil => exact absurd rfl h
  | cons c cs => rfl

theorem glue_nil_of (w : List Char) (rest : List (List Char))
    (hw : w = []) : glue (w :: rest) = glue rest := by
  show (if w = [] then glue rest
        else match glue rest with
          | [] => [w]
          | v :: vs =>
            if ckind w = ckind v then (w ++ v) :: vs else w :: v :: vs)
      = glue rest
  rw [if_pos hw]

theorem glue_cons_nil (w : List Char) (rest : List (List Char))
    (hw : w ≠ []) (hgr : glue rest = []) : glue (w :: rest) = [w] := by
  show (if w = [] then glue rest
        else match glue rest with
          | [] => [w]
          | v :: vs =>
            if ckind w = ckind v then (w ++ v) :: vs else w :: v :: vs)
      = [w]
  rw [if_neg hw, hgr]

theorem glue_cons_cons (w : List Char) (rest : List (List Char))
    (v : List Char) (vs : List (List Char)) (hw : w ≠ [])
    (hgr : glue rest = v :: vs) :
    glue (w :: rest)
      = if ckind w = ckind v then (w ++ v) :: vs else w :: v :: vs := by
  show (if w = [] then glue rest
        else match glue rest with
          | [] => [w]
          | v :: vs =>
            if ckind w = ckind v then (w ++ v) :: vs else w :: v :: vs)
      = if ckind w = ckind v then (w ++ v) :: vs else w :: v :: vs
  rw [if_neg hw, hgr]

theorem glue_flatten (l : List (List Char)) :
    (glue l).flatten = l.flatten := by
  induction l with
  | nil => rfl
  | cons w rest ih =>
    by_cases hw : w = []
    · rw [glue_nil_of w rest hw, ih, hw]
      simp
    · cases hgr : glue rest with
      | nil =>
        rw [glue_cons_nil w rest hw hgr]
        have : ([] : List (List Char)).flatten = rest.flatten := by
          rw [← hgr, ih]
        simp only [List.flatten_nil] at this
        simp [← this]
      | cons v vs =>
        rw [glue_cons_cons w rest v vs hw hgr]
        have hfl : (v :: vs).flatten = rest.flatten := by rw [← hgr, ih]
        by_cases hk : ckind w = ckind v
        · rw [if_pos hk]
          simp only [List.flatten_cons] at hfl ⊢
          rw [← hfl]
          simp
        · rw [if_neg hk]
          simp only [List.flatten_cons] at hfl ⊢
          rw [← hfl]

theorem glue_altOK (l : List (List Char)) (h : ∀ w ∈ l, Uniformish w) :
    AltOK none (glue l) := by
  induction l with
  | nil => trivial
  | cons w rest ih =>
    have hrest := ih (fun v hv => h v (List.mem_cons_of_mem _ hv))
    by_cases hw : w = []
    · rw [glue_nil_of w rest hw]
      exact hrest
    · obtain hwu | ⟨bw, hbw⟩ := h w (List.mem_cons_self _ _)
      · exact absurd hwu hw
      cases hgr : glue rest with
      | nil =>
        rw [glue_cons_nil w rest hw hgr]
        exact ⟨bw, hbw, by simp, trivial⟩
      | cons v vs =>
        rw [glue_cons_cons w rest v vs hw hgr]
        rw [hgr] at hrest
        obtain ⟨bv, hbv, _, hvs⟩ := hrest
        by_cases hk : ckind w = ckind v
        · rw [if_pos hk]
          have hbweq : bw = bv := by
            rw [← ckind_chunky hbw, ← ckind_chunky hbv]
            exact hk
          refine ⟨bw, ⟨by simp [hbw.1], ?_⟩, by simp, ?_⟩
          · intro c hc
            rcases List.mem_append.mp hc with h' | h'
            · exact hbw.2 c h'
            · rw [hbweq]; exact hbv.2 c h'
          · rw [hbweq]; exact hvs
        · rw [if_neg hk]
          refine ⟨bw, hbw, by simp, ⟨bv, hbv, ?_, hvs⟩⟩
          intro hEq
          apply hk
          rw [ckind_chunky hbw, ckind_chunky hbv]
          exact (Option.some.inj hEq).symm

theorem chunks_glue (l : List (List Char)) (h : ∀ w ∈ l, Uniformish w) :
    chunks l.flatten = glue l := by
  rw [← glue_flatten l]
  exact chunks_of_altOK (glue_altOK l h)

theorem glue_letter_mem (l : List (List Char)) (h : ∀ w ∈ l, Uniformish w) :
    ∀ w ∈ glue l, ckind w = true →
      ∃ ws : List (List Char), ws ≠ []
        ∧ (∀ v ∈ ws, v ∈ l ∧ ckind v = true ∧ v ≠ [])
        ∧ w = ws.flatten := by
  induction l with
  | nil => intro w hw; cases hw
  | cons w0 rest ih =>
    have ih' := ih (fun v hv => h v (List.mem_cons_of_mem _ hv))
    intro w hw hk
    by_cases hw0 : w0 = []
    · rw [glue_nil_of w0 rest hw0] at hw
      obtain ⟨ws, h1, h2, h3⟩ := ih' w hw hk
      exact ⟨ws, h1,
        fun v hv => ⟨List.mem_cons_of_mem _ (h2 v hv).1, (h2 v hv).2⟩, h3⟩
    · cases hgr : glue rest with
      | nil =>
        rw [glue_cons_nil w0 rest hw0 hgr] at hw
        rcases List.mem_singleton.mp hw with rfl
        exact ⟨[w], by simp,
          fun v hv => by
            rcases List.mem_singleton.mp hv with rfl
            exact ⟨List.mem_cons_self _ _, hk, hw0⟩,
          by simp⟩
      | cons v vs =>
        rw [glue_cons_cons w0 rest v vs hw0 hgr] at hw
        by_cases hkk : ckind w0 = ckind v
        · rw [if_pos hkk] at hw
          rcases List.mem_cons.mp hw with rfl | hvs
          · have hk0 : ckind w0 = true := by
              rw [← ckind_append v hw0]
              exact hk
            have hkv : ckind v = true := by rw [← hkk]; exact hk0
            obtain ⟨ws, h1, h2, h3⟩ :=
              ih' v (by rw [hgr]; exact List.mem_cons_self _ _) hkv
            refine ⟨w0 :: ws, by simp, ?_, by simp [h3]⟩
            intro u hu
            rcases List.mem_cons.mp hu with rfl | hu'
            · exact ⟨List.mem_cons_self _ _, hk0, hw0⟩
            · exact ⟨List.mem_cons_of_mem _ (h2 u hu').1, (h2 u hu').2⟩
          · obtain ⟨ws, h1, h2, h3⟩ :=
              ih' w (by rw [hgr]; exact List.mem_cons_of_mem _ hvs) hk
            exact ⟨ws, h1,
              fun u hu => ⟨List.mem_cons_of_mem _ (h2 u hu).1, (h2 u hu).2⟩, h3⟩
        · rw [if_neg hkk] at hw
          rcases List.mem_cons.mp hw with rfl | hvs
          · exact ⟨[w], by simp,
              fun u hu => by
                rcases List.mem_singleton.mp hu with rfl
                exact ⟨List.mem_cons_self _ _, hk, hw0⟩,
              by simp⟩
          · obtain ⟨ws, h1, h2, h3⟩ :=
              ih' w (by rw [hgr]; exact hvs) hk
            exact ⟨ws, h1,
              fun u hu => ⟨List.mem_cons_of_mem _ (h2 u hu).1, (h2 u hu).2⟩, h3⟩

theorem noLL_tail {w : List Char} {l : List (List Char)}
    (h : NoLL (w :: l)) : NoLL l := by
  cases l with
  | nil => trivial
  | cons v vs => exact h.2

theorem glue_head_kind (l : List (List Char)) (hne : ∀ w ∈ l, w ≠ []) :
    ∀ v vs, glue l = v :: vs → ∃ r rs, l = r :: rs ∧ ckind v = ckind r := by
  induction l with
  | nil => intro v vs h; cases h
  | cons r rs ih =>
    intro v vs h
    have hrne : r ≠ [] := hne r (List.mem_cons_self _ _)
    cases hgr : glue rs with
    | nil =>
      rw [glue_cons_nil r rs hrne hgr] at h
      obtain ⟨h1, _⟩ := List.cons.injEq .. ▸ h
      exact ⟨r, rs, rfl, by rw [h1]⟩
    | cons u us =>
      rw [glue_cons_cons r rs u us hrne hgr] at h
      by_cases hk : ckind r = ckind u
      · rw [if_pos hk] at h
        obtain ⟨h1, _⟩ := List.cons.injEq .. ▸ h
        exact ⟨r, rs, rfl, by rw [← h1]; exact ckind_append u hrne⟩
      · rw [if_neg hk] at h
        obtain ⟨h1, _⟩ := List.cons.injEq .. ▸ h
        exact ⟨r, rs, rfl, by rw [h1]⟩

theorem glue_letter_mem_sep (l : List (List Char))
    (h : ∀ w ∈ l, Uniformish w ∧ w ≠ []) (hll : NoLL l) :
    ∀ w ∈ glue l, ckind w = true → w ∈ l := by
  induction l with
  | nil => intro w hw; cases hw
  | cons w0 rest ih =>
    have ih' := ih (fun v hv => h v (List.mem_cons_of_mem _ hv))
      (noLL_tail hll)
    intro w hw hk
    have hw0 : w0 ≠ [] := (h w0 (List.mem_cons_self _ _)).2
    cases hgr : glue rest with
    | nil =>
      rw [glue_cons_nil w0 rest hw0 hgr] at hw
      rcases List.mem_singleton.mp hw with rfl
      exact List.mem_cons_self _ _
    | cons v vs =>
      rw [glue_cons_cons w0 rest v vs hw0 hgr] at hw
      by_cases hkk : ckind w0 = ckind v
      · have hk0false : ckind w0 = false := by
          by_contra hc
          have hk0 : ckind w0 = true := by
            cases hck : ckind w0
            · exact absurd hck hc
            · rfl
          obtain ⟨r, rs, hrest_eq, hvr⟩ :=
            glue_head_kind rest
              (fun u hu => (h u (List.mem_cons_of_mem _ hu)).2) v vs hgr
          have hkr : ckind r = true := by
            rw [← hvr, ← hkk]
            exact hk0
          rw [hrest_eq] at hll
          exact hll.1 ⟨hk0, hkr⟩
        rw [if_pos hkk] at hw
        rcases List.mem_cons.mp hw with rfl | hvs
        · rw [ckind_append v hw0, hk0false] at hk
          cases hk
        · have : w ∈ glue rest := by rw [hgr]; exact List.mem_cons_of_mem _ hvs
          exact List.mem_cons_of_mem _ (ih' w this hk)
      · rw [if_neg hkk] at hw
        rcases List.mem_cons.mp hw with rfl | hvs
        · exact List.mem_cons_self _ _
        · have : w ∈ glue rest := by rw [hgr]; exact hvs
          exact List.mem_cons_of_mem _ (ih' w this hk)

/-! ### Facts about `replaceRun` (one regex replacement) -/

theorem map_self {α : Type} (f : α → α) (l : List α)
    (h : ∀ x ∈ l, f x = x) : l.map f = l := by
  induction l with
  | nil => rfl
  | cons x xs ih =>
    rw [List.map_cons, h x (List.mem_cons_self _ _),
      ih (fun y hy => h y (List.mem_cons_of_mem _ hy))]

theorem low_eq_all_letter {pat w : List Char}
    (hp : ∀ c ∈ pat, isLetter c = true) (h : low w = low pat) :
    ∀ c ∈ w, isLetter c = true := by
  intro c hc
  have hmem : lcChar c ∈ low pat := by
    rw [← h]
    exact List.mem_map_of_mem lcChar hc
  obtain ⟨d, hd, hde⟩ := List.mem_map.mp hmem
  calc isLetter c = isLetter (lcChar c) := (lc_isLetter c).symm
    _ = isLetter (lcChar d) := by rw [hde]
    _ = isLetter d := lc_isLetter d
    _ = true := hp d hd

theorem altOK_map_noLL (f : List Char → List Char)
    (hf : ∀ w b, Chunky b w → ckind (f w) = true → ckind w = true) :
    ∀ (l : List (List Char)) (ob : Option Bool), AltOK ob l →
      NoLL (l.map f) := by
  intro l
  induction l with
  | nil => intro ob _; trivial
  | cons w1 tl ih =>
    intro ob h
    obtain ⟨b1, hw1, _, htl⟩ := h
    cases tl with
    | nil => trivial
    | cons w2 rest =>
      obtain ⟨b2, hw2, hneq, hrest⟩ := htl
      refine ⟨?_, ih (some b1) ⟨b2, hw2, hneq, hrest⟩⟩
      rintro ⟨hk1, hk2⟩
      have h1 := hf w1 b1 hw1 hk1
      have h2 := hf w2 b2 hw2 hk2
      rw [ckind_chunky hw1] at h1
      rw [ckind_chunky hw2] at h2
      exact hneq (by rw [h1, h2])

theorem chunks_map_flatten_letter (t : List Char) (f : List Char → List Char)
    (hid : ∀ u b, Chunky b u →
      f u = u ∨ (f u ≠ [] ∧ ∀ c ∈ f u, isLetter c = false)) :
    ∀ w ∈ chunks ((chunks t).map f).flatten, ckind w = true →
      w ∈ chunks t ∧ f w = w := by
  have helem : ∀ u ∈ (chunks t).map f, Uniformish u ∧ u ≠ [] := by
    intro u hu
    obtain ⟨u0, hu0, hequ⟩ := List.mem_map.mp hu
    obtain ⟨b, hb⟩ := chunks_chunky t u0 hu0
    rcases hid u0 b hb with hcase | ⟨hne, hnl⟩
    · rw [← hequ, hcase]
      exact ⟨Or.inr ⟨b, hb⟩, hb.1⟩
    · rw [← hequ]
      exact ⟨Or.inr ⟨false, hne, hnl⟩, hne⟩
  have hfk : ∀ w b, Chunky b w → ckind (f w) = true → ckind w = true := by
    intro w b hb hk
    rcases hid w b hb with hcase | ⟨hne, hnl⟩
    · rw [← hcase]
      exact hk
    · cases hfw : f w with
      | nil => exact absurd hfw hne
      | cons c cs =>
        have : isLetter c = false := hnl c (by rw [hfw]; exact List.mem_cons_self _ _)
        rw [hfw] at hk
        simp only [ckind] at hk
        rw [this] at hk
        cases hk
  have hnoll : NoLL ((chunks t).map f) :=
    altOK_map_noLL f hfk (chunks t) none (chunks_alt t)
  have hg : chunks ((chunks t).map f).flatten = glue ((chunks t).map f) :=
    chunks_glue _ (fun u hu => (helem u hu).1)
  intro w hw hk
  rw [hg] at hw
  have hwmem := glue_letter_mem_sep _ helem hnoll w hw hk
  obtain ⟨u0, hu0, hequ⟩ := List.mem_map.mp hwmem
  obtain ⟨b, hb⟩ := chunks_chunky t u0 hu0
  rcases hid u0 b hb with hcase | ⟨hne, hnl⟩
  · rw [← hequ, hcase]
    exact ⟨hu0, hcase⟩
  · exfalso
    rw [← hequ] at hk
    cases hfw : f u0 with
    | nil => exact hne hfw
    | cons c cs =>
      have hcl : isLetter c = false :=
        hnl c (by rw [hfw]; exact List.mem_cons_self _ _)
      rw [hfw] at hk
      simp only [ckind] at hk
      rw [hcl] at hk
      cases hk

theorem replaceRun_letter_chunks (pat rep : List Char) (hrepne : rep ≠ [])
    (hrep : ∀ c ∈ rep, isLetter c = false) (t : List Char) :
    ∀ w ∈ chunks (replaceRun pat rep t), ckind w = true →
      w ∈ chunks t ∧ low w ≠ low pat := by
  have key := chunks_map_flatten_letter t
    (fun ch => if low ch = low pat then rep else ch)
    (by
      intro u b hb
      by_cases hc : low u = low pat
      · right
        simp only [if_pos hc]
        exact ⟨hrepne, hrep⟩
      · left
        simp only [if_neg hc])
  intro w hw hk
  obtain ⟨hmem, hfix⟩ := key w hw hk
  refine ⟨hmem, ?_⟩
  intro heq
  have hfix' : (if low w = low pat then rep else w) = w := hfix
  rw [if_pos heq] at hfix'
  cases hwc : w with
  | nil => rw [hwc] at hk; cases hk
  | cons c cs =>
    have hcl : isLetter c = true := by
      rw [hwc] at hk
      exact hk
    have : isLetter c = false := by
      apply hrep
      rw [hfix', hwc]
      exact List.mem_cons_self _ _
    rw [this] at hcl
    cases hcl

theorem replaceRun_id (pat rep : List Char)
    (hpat : ∀ c ∈ pat, isLetter c = true) (t : List Char)
    (h : ∀ w ∈ chunks t, ckind w = true → low w ≠ low pat) :
    replaceRun pat rep t = t := by
  unfold replaceRun
  rw [map_self _ _ ?_, chunks_flatten]
  intro u hu
  obtain ⟨b, hb⟩ := chunks_chunky t u hu
  by_cases hc : low u = low pat
  · exfalso
    have hall := low_eq_all_letter hpat hc
    have hku : ckind u = true := by
      obtain ⟨hne, _⟩ := hb
      cases u with
      | nil => exact absurd rfl hne
      | cons c cs => exact hall c (List.mem_cons_self _ _)
    exact h u hu hku hc
  · simp only [if_neg hc]

/-! ### The full Roman-numeral pass -/

theorem ROMANS_facts :
    ∀ pr ∈ ROMANS, pr.1 ≠ [] ∧ (∀ c ∈ pr.1, isLetter c = true)
      ∧ pr.2 ≠ [] ∧ (∀ c ∈ pr.2, isLetter c = false ∧ c ∈ digitChars) := by
  decide

theorem roman_fold_noTok (rs : List (List Char × List Char)) :
    ∀ (t : List Char) (ws : List (List Char)),
      (∀ pr ∈ rs, pr.2 ≠ [] ∧ (∀ c ∈ pr.2, isLetter c = false)) →
      (∀ w ∈ chunks t, ckind w = true → ∀ v ∈ ws, low w ≠ v) →
      ∀ w ∈ chunks (rs.foldl (fun t pr => replaceRun pr.1 pr.2 t) t),
        ckind w = true →
          ∀ v ∈ ws ++ rs.map (fun pr => low pr.1), low w ≠ v := by
  induction rs with
  | nil =>
    intro t ws _ h w hw hk v hv
    exact h w hw hk v (by simpa using hv)
  | cons pr rest ih =>
    intro t ws hprs h
    simp only [List.foldl_cons]
    have hpr := hprs pr (List.mem_cons_self _ _)
    have hstep := replaceRun_letter_chunks pr.1 pr.2 hpr.1 hpr.2 t
    have hnext : ∀ w ∈ chunks (replaceRun pr.1 pr.2 t), ckind w = true →
        ∀ v ∈ ws ++ [low pr.1], low w ≠ v := by
      intro w hw hk v hv
      rcases List.mem_append.mp hv with hv' | hv'
      · exact h w (hstep w hw hk).1 hk v hv'
      · rcases List.mem_singleton.mp hv' with rfl
        exact (hstep w hw hk).2
    intro w hw hk v hv
    refine ih (replaceRun pr.1 pr.2 t) (ws ++ [low pr.1])
      (fun pr' h' => hprs pr' (List.mem_cons_of_mem _ h')) hnext w hw hk v ?_
    simp only [List.mem_append, List.mem_singleton, List.map_cons,
      List.mem_cons] at hv ⊢
    tauto

theorem romanAll_noTok (t : List Char) : NoTok lowWords (romanAll t) := by
  intro w hw hk v hv
  refine roman_fold_noTok ROMANS t []
    (fun pr hpr => ⟨(ROMANS_facts pr hpr).2.2.1,
      fun c hc => ((ROMANS_facts pr hpr).2.2.2 c hc).1⟩)
    (fun w _ _ v hv => absurd hv (List.not_mem_nil v)) w hw hk v ?_
  simpa [lowWords] using hv

theorem roman_fold_id (rs : List (List Char × List Char)) :
    ∀ t : List Char,
      (∀ pr ∈ rs, (∀ c ∈ pr.1, isLetter c = true) ∧ low pr.1 ∈ lowWords) →
      NoTok lowWords t →
      rs.foldl (fun t pr => replaceRun pr.1 pr.2 t) t = t := by
  induction rs with
  | nil => intro t _ _; rfl
  | cons pr rest ih =>
    intro t hprs hnt
    simp only [List.foldl_cons]
    have hid : replaceRun pr.1 pr.2 t = t :=
      replaceRun_id pr.1 pr.2 (hprs pr (List.mem_cons_self _ _)).1 t
        (fun w hw hk =>
          hnt w hw hk (low pr.1) (hprs pr (List.mem_cons_self _ _)).2)
    rw [hid]
    exact ih t (fun pr' h' => hprs pr' (List.mem_cons_of_mem _ h')) hnt

theorem romanAll_id (t : List Char) (h : NoTok lowWords t) :
    romanAll t = t :=
  roman_fold_id ROMANS t
    (fun pr hpr => ⟨(ROMANS_facts pr hpr).2.1,
      List.mem_map_of_mem (fun pr => low pr.1) hpr⟩) h

/-! ### Transport of `NoTok` through lowercasing and whitespace strip -/

theorem chunksAux_map (g : Char → Char)
    (hg : ∀ c, isLetter (g c) = isLetter c) (z : List Char) :
    ∀ b cur, chunksAux b (cur.map g) (z.map g)
      = (chunksAux b cur z).map (List.map g) := by
  induction z with
  | nil =>
    intro b cur
    simp [chunksAux, List.map_reverse]
  | cons c cs ih =>
    intro b cur
    simp only [List.map_cons, chunksAux, hg c]
    by_cases h : isLetter c = b
    · rw [if_pos h, if_pos h]
      exact ih b (c :: cur)
    · rw [if_neg h, if_neg h]
      rw [List.map_cons]
      congr 1
      · rw [List.map_reverse]
      · exact ih (isLetter c) [c]

theorem chunks_map (g : Char → Char)
    (hg : ∀ c, isLetter (g c) = isLetter c) (l : List Char) :
    chunks (l.map g) = (chunks l).map (List.map g) := by
  cases l with
  | nil => rfl
  | cons c cs =>
    show chunksAux (isLetter (g c)) [g c] (cs.map g)
      = (chunksAux (isLetter c) [c] cs).map (List.map g)
    rw [hg c]
    exact chunksAux_map g hg cs (isLetter c) [c]

theorem low_lower (u : List Char) : low (lowerL u) = low u := by
  show (u.map lcChar).map lcChar = u.map lcChar
  rw [List.map_map]
  exact List.map_congr_left (fun a _ => lc_idem a)

theorem noTok_lower {t : List Char} (h : NoTok lowWords t) :
    NoTok lowWords (lowerL t) := by
  intro w hw hk v hv
  have hw' : w ∈ (chunks t).map (List.map lcChar) := by
    rw [← chunks_map lcChar lc_isLetter]
    exact hw
  obtain ⟨w0, hw0, hequ⟩ := List.mem_map.mp hw'
  have hk0 : ckind w0 = true := by
    cases w0 with
    | nil =>
      rw [← hequ] at hk
      cases hk
    | cons c cs =>
      rw [← hequ] at hk
      simp only [List.map_cons, ckind] at hk
      rw [lc_isLetter c] at hk
      exact hk
  have hlw : low w = low w0 := by
    rw [← hequ]
    exact low_lower w0
  rw [hlw]
  exact h w0 hw0 hk0 v hv

theorem filter_flatten (p : Char → Bool) (l : List (List Char)) :
    l.flatten.filter p = (l.map (List.filter p)).flatten := by
  induction l with
  | nil => rfl
  | cons w rest ih =>
    simp [List.filter_append, ih]

theorem flatten_ne_nil {ws : List (List Char)} (h : ws ≠ [])
    (hne : ∀ v ∈ ws, v ≠ []) : ws.flatten ≠ [] := by
  cases ws with
  | nil => exact absurd rfl h
  | cons v vs =>
    have hv := hne v (List.mem_cons_self _ _)
    cases v with
    | nil => exact absurd rfl hv
    | cons c cs => simp

theorem lowWords_split :
    ∀ u ∈ lowWords, ∀ i ∈ List.range u.length, 1 ≤ i →
      u.take i ∈ lowWords ∧ u.drop i ∈ lowWords := by
  decide

theorem flatten_not_word (ws : List (List Char)) (hne : ws ≠ [])
    (hfac : ∀ v ∈ ws, v ≠ [] ∧ ∀ u ∈ lowWords, low v ≠ u) :
    ∀ u ∈ lowWords, low ws.flatten ≠ u := by
  intro u hu hEq
  cases ws with
  | nil => exact absurd rfl hne
  | cons v rest =>
    by_cases hrest : rest.flatten = []
    · have hlw : low (v :: rest).flatten = low v := by
        show low (v ++ rest.flatten) = low v
        rw [hrest]
        simp
      rw [hlw] at hEq
      exact (hfac v (List.mem_cons_self _ _)).2 u hu hEq
    · have hsplit : low (v :: rest).flatten = low v ++ low rest.flatten := by
        show (v ++ rest.flatten).map lcChar = low v ++ low rest.flatten
        rw [List.map_append]
        rfl
      rw [hsplit] at hEq
      have hvne : v ≠ [] := (hfac v (List.mem_cons_self _ _)).1
      have hlen1 : 1 ≤ (low v).length := by
        cases v with
        | nil => exact absurd rfl hvne
        | cons c cs => simp [low]
      have hlen2 : (low v).length < u.length := by
        rw [← hEq]
        simp only [List.length_append]
        have : (low rest.flatten).length ≠ 0 := by
          simp only [low, List.length_map]
          intro h0
          exact hrest (List.eq_nil_of_length_eq_zero h0)
        omega
      have htake : u.take (low v).length = low v := by
        rw [← hEq]
        exact List.take_left _ _
      have := (lowWords_split u hu (low v).length
        (List.mem_range.mpr hlen2) hlen1).1
      rw [htake] at this
      exact (hfac v (List.mem_cons_self _ _)).2 (low v) this rfl

theorem uniformish_filter {b : Bool} {u : List Char} (p : Char → Bool)
    (h : Chunky b u) : Uniformish (u.filter p) := by
  cases hf : u.filter p with
  | nil => exact Or.inl rfl
  | cons c cs =>
    right
    refine ⟨b, by simp, ?_⟩
    intro d hd
    rw [← hf] at hd
    exact h.2 d (List.mem_of_mem_filter hd)

theorem noTok_strip {t : List Char} (h : NoTok lowWords t) :
    NoTok lowWords (stripWS t) := by
  have hstrip : stripWS t
      = ((chunks t).map (List.filter (fun c => !isWS c))).flatten := by
    show t.filter (fun c => !isWS c) = _
    conv_lhs => rw [← chunks_flatten t]
    exact filter_flatten _ _
  have huni : ∀ u ∈ (chunks t).map (List.filter (fun c => !isWS c)),
      Uniformish u := by
    intro u hu
    obtain ⟨u0, hu0, hequ⟩ := List.mem_map.mp hu
    obtain ⟨b, hb⟩ := chunks_chunky t u0 hu0
    rw [← hequ]
    exact uniformish_filter _ hb
  intro w hw hk
  rw [hstrip] at hw
  rw [chunks_glue _ huni] at hw
  obtain ⟨ws, hwsne, hfac, rfl⟩ := glue_letter_mem _ huni w hw hk
  refine flatten_not_word ws hwsne ?_
  intro v hv
  obtain ⟨hvmem, hvk, hvne⟩ := hfac v hv
  obtain ⟨u0, hu0, hequ⟩ := List.mem_map.mp hvmem
  obtain ⟨b, hb⟩ := chunks_chunky t u0 hu0
  have hbtrue : b = true := by
    cases hvc : v with
    | nil => exact absurd hvc hvne
    | cons c cs =>
      have hcm : c ∈ u0 := by
        have : c ∈ u0.filter (fun c => !isWS c) := by
          rw [hequ, hvc]
          exact List.mem_cons_self _ _
        exact List.mem_of_mem_filter this
      have := hb.2 c hcm
      rw [hvc] at hvk
      simp only [ckind] at hvk
      rw [← this]
      exact hvk
  have hveq : v = u0 := by
    rw [← hequ]
    apply List.filter_eq_self.mpr
    intro c hc
    have := hb.2 c hc
    rw [hbtrue] at this
    rw [letter_not_ws c this]
    rfl
  refine ⟨hvne, ?_⟩
  rw [hveq]
  have hku0 : ckind u0 = true := by
    rw [← hbtrue]
    exact ckind_chunky hb
  intro u hu
  exact h u0 hu0 hku0 u hu

/-! ### Character tracking through the Roman pass (for the simp-fold) -/

theorem replaceRun_chars (pat rep t : List Char) :
    ∀ c ∈ replaceRun pat rep t, c ∈ t ∨ c ∈ rep := by
  intro c hc
  obtain ⟨blk, hblk, hcb⟩ := List.mem_flatten.mp hc
  obtain ⟨u, hu, hequ⟩ := List.mem_map.mp hblk
  have hequ' : (if low u = low pat then rep else u) = blk := hequ
  by_cases hcase : low u = low pat
  · rw [if_pos hcase] at hequ'
    right
    rw [hequ']
    exact hcb
  · rw [if_neg hcase] at hequ'
    left
    rw [← chunks_flatten t]
    exact List.mem_flatten.mpr ⟨u, hu, by rw [hequ']; exact hcb⟩

theorem roman_fold_chars (rs : List (List Char × List Char)) :
    ∀ (t : List Char) (c : Char),
      (∀ pr ∈ rs, ∀ d ∈ pr.2, d ∈ digitChars) →
      c ∈ rs.foldl (fun t pr => replaceRun pr.1 pr.2 t) t →
      c ∈ t ∨ c ∈ digitChars := by
  induction rs with
  | nil => intro t c _ hc; exact Or.inl hc
  | cons pr rest ih =>
    intro t c hprs hc
    simp only [List.foldl_cons] at hc
    rcases ih (replaceRun pr.1 pr.2 t) c
      (fun pr' h' => hprs pr' (List.mem_cons_of_mem _ h')) hc with h' | h'
    · rcases replaceRun_chars pr.1 pr.2 t c h' with h'' | h''
      · exact Or.inl h''
      · exact Or.inr (hprs pr (List.mem_cons_self _ _) c h'')
    · exact Or.inr h'

theorem romanAll_chars (t : List Char) (c : Char) (hc : c ∈ romanAll t) :
    c ∈ t ∨ c ∈ digitChars :=
  roman_fold_chars ROMANS t c
    (fun pr hpr d hd => ((ROMANS_facts pr hpr).2.2.2 d hd).2) hc

/-! ### Idempotence of the `getSongKey` title folds -/

theorem keyTransform_char_fixed (s : List Char) :
    ∀ c ∈ keyTransform s, simpChar c = c ∧ lcChar c = c ∧ isWS c = false := by
  intro c hc
  have hc1 : c ∈ lowerL (romanAll (toSimplifiedL s)) ∧ ¬isWS c = true := by
    have := List.mem_filter.mp hc
    simpa using this
  obtain ⟨d, hd, hde⟩ := List.mem_map.mp hc1.1
  rcases romanAll_chars _ d hd with hds | hdd
  · obtain ⟨e, _, hse⟩ := List.mem_map.mp hds
    refine ⟨?_, ?_, by simpa using hc1.2⟩
    · rw [← hde, ← hse]
      exact simp_lc_simp_fix e
    · rw [← hde]
      exact lc_idem d
  · refine ⟨?_, ?_, by simpa using hc1.2⟩
    · rw [← hde]
      exact simp_lc_digit_fix d hdd
    · rw [← hde]
      exact lc_idem d

/-- The composite of the `getSongKey` title folds — traditional→simplified
fold, Roman-numeral fold, lowercase, whitespace strip — is idempotent. -/
theorem keyTransform_idem (s : List Char) :
    keyTransform (keyTransform s) = keyTransform s := by
  have hfix := keyTransform_char_fixed s
  have h2 : NoTok lowWords (keyTransform s) :=
    noTok_strip (noTok_lower (romanAll_noTok (toSimplifiedL s)))
  have h1 : toSimplifiedL (keyTransform s) = keyTransform s :=
    map_self _ _ (fun c hc => (hfix c hc).1)
  have h3 : romanAll (keyTransform s) = keyTransform s := romanAll_id _ h2
  have h4 : lowerL (keyTransform s) = keyTransform s :=
    map_self _ _ (fun c hc => (hfix c hc).2.1)
  have h5 : stripWS (keyTransform s) = keyTransform s := by
    apply List.filter_eq_self.mpr
    intro c hc
    rw [(hfix c hc).2.2]
    rfl
  calc keyTransform (keyTransform s)
      = stripWS (lowerL (romanAll (toSimplifiedL (keyTransform s)))) := rfl
    _ = keyTransform s := by rw [h1, h3, h4, h5]

/-! ### Transfer to the expanding `toLowerCase` on the exact alphabet -/

theorem lcChars_eq (c : Char) (h : ¬ c = 'İ') : lcChars c = [lcChar c] := by
  unfold lcChars
  rw [if_neg h]

theorem lowerE_eq (l : List Char) (h : ∀ c ∈ l, ¬ c = 'İ') :
    lowerE l = lowerL l := by
  induction l with
  | nil => rfl
  | cons c cs ih =>
    have h1 : lowerE (c :: cs) = lcChars c ++ lowerE cs := rfl
    have h2 : lowerE cs = lowerL cs :=
      ih (fun d hd => h d (List.mem_cons_of_mem _ hd))
    rw [h1, lcChars_eq c (h c (List.mem_cons_self _ _)), h2]
    rfl

theorem keyAlpha_lc (c : Char) (h : keyAlpha c = true) :
    keyAlpha (lcChar c) = true := by
  unfold lcChar
  cases h2 : tblGet ucPairs c with
  | some v =>
    have hv : (c, v) ∈ ucPairs := tblGet_mem h2
    have hall : ∀ p ∈ ucPairs, keyAlpha p.2 = true := by decide
    exact hall (c, v) hv
  | none => exact h

theorem keyAlpha_simpChar (c : Char) (h : keyAlpha c = true) :
    keyAlpha (simpChar c) = true := by
  unfold simpChar
  cases h2 : tblGet TRAD_TO_SIMP c with
  | some v =>
    have hv : (c, v) ∈ TRAD_TO_SIMP := tblGet_mem h2
    have hall : ∀ p ∈ TRAD_TO_SIMP, keyAlpha p.2 = true := by decide
    exact hall (c, v) hv
  | none => exact h

theorem keyAlpha_digit : ∀ c ∈ digitChars, keyAlpha c = true := by decide

theorem romanSimp_alpha (s : List Char) (h : ∀ c ∈ s, keyAlpha c = true) :
    ∀ c ∈ romanAll (toSimplifiedL s), keyAlpha c = true := by
  intro c hc
  rcases romanAll_chars _ c hc with h1 | h1
  · obtain ⟨e, he, hse⟩ := List.mem_map.mp h1
    rw [← hse]
    exact keyAlpha_simpChar e (h e he)
  · exact keyAlpha_digit c h1

theorem keyTransform_alpha (s : List Char) (h : ∀ c ∈ s, keyAlpha c = true) :
    ∀ c ∈ keyTransform s, keyAlpha c = true := by
  intro c hc
  have hc1 : c ∈ lowerL (romanAll (toSimplifiedL s)) :=
    (List.mem_filter.mp hc).1
  obtain ⟨d, hd, hde⟩ := List.mem_map.mp hc1
  rw [← hde]
  exact keyAlpha_lc d (romanSimp_alpha s h d hd)

theorem keyAlpha_not_istanbul (c : Char) (h : keyAlpha c = true) :
    ¬ c = 'İ' := by
  intro hEq
  rw [hEq] at h
  exact absurd h (by decide)

/-- On titles over the exact alphabet, the expanding and the simple
lowercase renderings of the fold pipeline coincide. -/
theorem keyTransformE_eq (s : List Char) (h : ∀ c ∈ s, keyAlpha c = true) :
    keyTransformE s = keyTransform s := by
  show stripWS (lowerE (romanAll (toSimplifiedL s))) = keyTransform s
  rw [lowerE_eq _
    (fun c hc => keyAlpha_not_istanbul c (romanSimp_alpha s h c hc))]
  rfl

/-- Over full Unicode the folds are NOT idempotent: one pass lowercases
`İ` to `i` plus U+0307, and the Roman-numeral fold of a second pass
rewrites the new standalone letter `i` (not preceded or followed by an
ASCII letter) to `1`. -/
theorem keyTransformE_not_idem_istanbul :
    ¬ keyTransformE (keyTransformE ['İ']) = keyTransformE ['İ'] := by
  decide

/-- Counterexample to C5 as stated: the full title pipeline (suffix strip,
then the folds) is not idempotent.  `"好(纯音樂)"` keeps its suffix on the
first pass (the keyword `纯音乐` does not match the traditional `樂`), the
traditional→simplified fold then rewrites it to `"好(纯音乐)"`, and a
second pass strips the now-recognized suffix, yielding `"好"`. -/
theorem c5_counterexample :
    normalizeTitle (normalizeTitle "好(纯音樂)") ≠ normalizeTitle "好(纯音樂)" := by
  decide

/-- C5 (amended): on titles over the alphabet the scripts manipulate —
ASCII, the CJK unified block, fullwidth parens, whitespace, where every
character primitive of the embedding is exact — the normalization applied
by `getSongKey` to a title (traditional→simplified folding, Roman-numeral
folding, lowercasing with its U+0130 expansion, whitespace stripping) is
idempotent as a composite.  Over full Unicode even this composite is not
idempotent (the lowercase expansion of `İ` creates a standalone ASCII `i`
that a second pass's Roman-numeral fold rewrites), and the full pipeline
with descriptive-suffix stripping is not idempotent even on this
alphabet. -/
theorem c5_title_folds_idempotent (s : List Char)
    (h : ∀ c ∈ s, keyAlpha c = true) :
    keyTransformE (keyTransformE s) = keyTransformE s := by
  rw [keyTransformE_eq s h,
      keyTransformE_eq (keyTransform s) (keyTransform_alpha s h)]
  exact keyTransform_idem s

/-- Witness for C5's amended statement at a concrete in-alphabet title. -/
theorem c5_witness :
    (∀ c ∈ "Beyond 海闊天空 III".data, keyAlpha c = true)
    ∧ keyTransformE (keyTransformE "Beyond 海闊天空 III".data)
        = keyTransformE "Beyond 海闊天空 III".data :=
  ⟨by decide,
   c5_title_folds_idempotent "Beyond 海闊天空 III".data (by decide)⟩

end JsTools
